import Mathlib

/-!
Verification of the fixed-width 3072-bit modular arithmetic engine of the
go-muhash library, together with the MuHash serialization layer built on it.

The Go engine (`uint3072` and its methods) works on 48 little-endian limbs of
64 bits.  We embed a limb as a `Nat` together with the invariant that it is
`< 2^64`; every wrapping machine operation of the source is translated with an
explicit `% 2^64` (or `/ 2^64` for the carry-out of `bits.Add` / the high half
of `bits.Mul`).  A `uint3072` is embedded as a `List Nat` of length 48.
-/

namespace GoMuhash

/-- The limb base: one machine word holds values in `[0, 2^64)`. -/
def B : Nat := 2 ^ 64

/-- `limbs = elementWordSize = 3072 / 64`. -/
def limbs : Nat := 48

/-- `primeDiff = 1103717`. -/
def primeDiff : Nat := 1103717

/-- The modulus `p = 2^3072 - 1103717` (`prime` in `muhash.go`). -/
def prime : Nat := B ^ 48 - primeDiff

/-- Value of a 3-limb accumulator `[low, high, carry]`, little-endian. -/
def val3 : Nat × Nat × Nat → Nat
  | (l, h, c) => l + h * B + c * (B * B)

/-- Value of a 2-limb accumulator `[low, high]`. -/
def val2 : Nat × Nat → Nat
  | (l, h) => l + h * B

/-- All three components of an accumulator are genuine machine words. -/
def comps3 : Nat × Nat × Nat → Prop
  | (l, h, c) => l < B ∧ h < B ∧ c < B

/-- Little-endian value of a digit list in base `b`. -/
def radixVal (b : Nat) : List Nat → Nat
  | [] => 0
  | a :: l => a + b * radixVal b l

/-- The integer represented by a `uint3072` limb list. -/
def valList (x : List Nat) : Nat := radixVal B x

/-- A well-formed `uint3072`: 48 limbs, each a machine word. -/
def bounded (x : List Nat) : Prop := x.length = limbs ∧ ∀ a ∈ x, a < B

/-- Limb access, `lhs[i]` in the source. -/
def wval (x : List Nat) (i : Nat) : Nat := x.getD i 0

/-! ### LimbOps (faithful translations of the Go helpers, `% B` = wrapping) -/

/-- `muladd3`: `[low,high,carry] += a * b` with wrapping carry into `carry`. -/
def muladd3 (s : Nat × Nat × Nat) (a b : Nat) : Nat × Nat × Nat :=
  match s with
  | (low, high, carry) =>
    let tl := a * b % B
    let th := a * b / B
    let low' := (low + tl) % B
    let c1 := (low + tl) / B
    let high' := (high + th + c1) % B
    let c2 := (high + th + c1) / B
    (low', high', (carry + c2) % B)

/-- `muldbladd3`: `[low,high,carry] += 2 * a * b`; the Go body is the
`muladd3` body written out twice. -/
def muldbladd3 (s : Nat × Nat × Nat) (a b : Nat) : Nat × Nat × Nat :=
  muladd3 (muladd3 s a b) a b

/-- `mulnadd3`: `[c0,c1,c2] += n * [d0,d1,d2]`; the Go code overwrites `c2`
(it must be 0 on entry). -/
def mulnadd3 (c : Nat × Nat × Nat) (d : Nat × Nat × Nat) (n : Nat) : Nat × Nat × Nat :=
  match c, d with
  | (c0, c1, _c2), (d0, d1, d2) =>
    let tl := d0 * n % B
    let th := d0 * n / B
    let c0' := (c0 + tl) % B
    let th' := (th + (c0 + tl) / B) % B
    let tl2 := d1 * n % B
    let th2 := d1 * n / B
    let s1 := (tl2 + c1) % B
    let th2a := (th2 + (tl2 + c1) / B) % B
    let c1' := (s1 + th') % B
    let th2b := (th2a + (s1 + th') / B) % B
    (c0', c1', (th2b + d2 * n % B) % B)

/-- `muln2`: `[low,high] *= n`; the high half of `high * n` is discarded. -/
def muln2 (s : Nat × Nat) (n : Nat) : Nat × Nat :=
  match s with
  | (low, high) => (low * n % B, (low * n / B + high * n % B) % B)

/-- Go `addnextract2`: `[low,high] += a` (with a third carry word built from
two more `bits.Add` calls), then extract the lowest limb.  Returns
`(n, low', high')`. -/
def addnextract2 (low high a : Nat) : Nat × Nat × Nat :=
  let low1 := (low + a) % B
  let c1 := (low + a) / B
  let high1 := (high + c1) % B
  let c2 := (high + c1) / B
  let high2 := (high1 + c2) % B
  let c3 := (high1 + c2) / B
  (low1, high2, c3)

/-- C `addnextract2` (from the cgo port): the carry into the third word is
taken when `high` wraps to 0, instead of cascading two more adds. -/
def addnextract2C (low high a : Nat) : Nat × Nat × Nat :=
  let low1 := (low + a) % B
  if low1 < a then
    let high1 := (high + 1) % B
    (low1, high1, if high1 = 0 then 1 else 0)
  else
    (low1, high, 0)

/-! ### `uint3072` operations -/

/-- `uint3072.IsOverflow`: true iff the stored value is `≥ p`. -/
def isOverflow (x : List Nat) : Bool :=
  if wval x 0 ≤ (B - 1) - primeDiff then false
  else (List.range' 1 (limbs - 1)).all fun i => wval x i == B - 1

/-- C `Num3072_IsOverflow` (identical logic, `int` result modelled as `Bool`). -/
def num3072IsOverflow (x : List Nat) : Bool :=
  if wval x 0 ≤ (B - 1) - primeDiff then false
  else (List.range' 1 (limbs - 1)).all fun i => wval x i == B - 1

/-- One step of a streaming add-and-extract loop: feed limb `t` into the
running `[low,high]` accumulator and append the extracted limb. -/
def anxStep (acc : (Nat × Nat) × List Nat) (t : Nat) : (Nat × Nat) × List Nat :=
  match addnextract2 acc.1.1 acc.1.2 t with
  | (n, low', high') => ((low', high'), acc.2 ++ [n])

/-- `uint3072.FullReduce`: stream `x + primeDiff` through `addnextract2`,
writing the limbs back and discarding the final carry. -/
def fullReduce (x : List Nat) : List Nat :=
  (x.foldl anxStep ((primeDiff, 0), [])).2

/-- `uint3072.SetToOne` / the `one()` constructor. -/
def one3072 : List Nat := 1 :: List.replicate (limbs - 1) 0

/-! #### `uint3072.Mul` -/

/-- The high-half partial column of `Mul` for outer index `j`:
`mul(lhs[1+j], rhs[limbs+j-(1+j)])` followed by `muladd3` over
`i = 2+j .. limbs-1` of `lhs[i] * rhs[limbs+j-i]`. -/
def hiCol (x y : List Nat) (j : Nat) : Nat × Nat × Nat :=
  (List.range' (2 + j) (limbs - (2 + j))).foldl
    (fun s i => muladd3 s (wval x i) (wval y (limbs + j - i)))
    (wval x (1 + j) * wval y (limbs + j - (1 + j)) % B,
     wval x (1 + j) * wval y (limbs + j - (1 + j)) / B, 0)

/-- The low-half column of `Mul` for outer index `j`: `muladd3` over
`i = 0 .. j` of `lhs[i] * rhs[j-i]`, folded into the running accumulator. -/
def lowColAdd (x y : List Nat) (j : Nat) (s : Nat × Nat × Nat) : Nat × Nat × Nat :=
  (List.range (j + 1)).foldl (fun s i => muladd3 s (wval x i) (wval y (j - i))) s

/-- One iteration of the first loop of `Mul`: fold the high column through
`mulnadd3` (times `primeDiff`), add the low column, extract `tmp[j]`. -/
def mulStep (x y : List Nat) (s : (Nat × Nat × Nat) × List Nat) (j : Nat) :
    (Nat × Nat × Nat) × List Nat :=
  let r := lowColAdd x y j (mulnadd3 s.1 (hiCol x y j) primeDiff)
  ((r.2.1, r.2.2, 0), s.2 ++ [r.1])

/-- The first `limbs - 1` iterations of `Mul` (limbs `0 .. N-2` of the
partially reduced product). -/
def mulPhase1 (x y : List Nat) : (Nat × Nat × Nat) × List Nat :=
  (List.range (limbs - 1)).foldl (mulStep x y) ((0, 0, 0), [])

/-- Limb `N-1` of the product: `muladd3` over `i = 0 .. limbs-1` of
`lhs[i] * rhs[limbs-1-i]`, then extract `tmp[limbs-1]`. -/
def mulPhase2 (x y : List Nat) : (Nat × Nat × Nat) × List Nat :=
  match mulPhase1 x y with
  | (kl, tmp) =>
    let r := (List.range limbs).foldl
      (fun s i => muladd3 s (wval x i) (wval y (limbs - 1 - i))) kl
    ((r.2.1, r.2.2, 0), tmp ++ [r.1])

/-- The second reduction of `Mul`/`Square`: `muln2` by `primeDiff`, then the
`addnextract2` loop over `tmp`, producing the output limbs and the final
`[carryLow, carryHigh]`. -/
def secondReduction (kl : Nat × Nat) (tmp : List Nat) : (Nat × Nat) × List Nat :=
  tmp.foldl anxStep (muln2 kl primeDiff, [])

/-- The final conditional reductions of `Mul`/`Square`. -/
def finalReductions (lo : Nat) (out : List Nat) : List Nat :=
  let out1 := if isOverflow out then fullReduce out else out
  if 0 < lo then fullReduce out1 else out1

/-- `uint3072.Mul`.  The source writes all results to the scratch `tmp`
before overwriting `lhs`, so an aliased call `x.Mul(&x)` reads the original
operand throughout; modelling both operands as values is faithful. -/
def mulGo (x y : List Nat) : List Nat :=
  match mulPhase2 x y with
  | (kl, tmp) =>
    match secondReduction (kl.1, kl.2.1) tmp with
    | ((lo, _hi), out) => finalReductions lo out

/-! #### `uint3072.Square` -/

/-- The high-half partial column of `Square` for outer index `j`:
`muldbladd3` over the first half of the symmetric pairs, plus the middle
term via `muladd3` when `(j+1) & 1 == 1`. -/
def sqHiCol (x : List Nat) (j : Nat) : Nat × Nat × Nat :=
  let s := (List.range ((limbs - 1 - j) / 2)).foldl
    (fun s i => muldbladd3 s (wval x (i + j + 1)) (wval x (limbs - 1 - i))) (0, 0, 0)
  if (j + 1) % 2 = 1 then
    muladd3 s (wval x ((limbs - 1 - j) / 2 + j + 1))
      (wval x (limbs - 1 - (limbs - 1 - j) / 2))
  else s

/-- The low-half column of `Square` for outer index `j`, folded into the
running accumulator. -/
def sqLowColAdd (x : List Nat) (j : Nat) (s : Nat × Nat × Nat) : Nat × Nat × Nat :=
  let s := (List.range ((j + 1) / 2)).foldl
    (fun s i => muldbladd3 s (wval x i) (wval x (j - i))) s
  if (j + 1) % 2 = 1 then
    muladd3 s (wval x ((j + 1) / 2)) (wval x (j - (j + 1) / 2))
  else s

/-- One iteration of the first loop of `Square`. -/
def sqStep (x : List Nat) (s : (Nat × Nat × Nat) × List Nat) (j : Nat) :
    (Nat × Nat × Nat) × List Nat :=
  let r := sqLowColAdd x j (mulnadd3 s.1 (sqHiCol x j) primeDiff)
  ((r.2.1, r.2.2, 0), s.2 ++ [r.1])

/-- The first `limbs - 1` iterations of `Square`. -/
def sqPhase1 (x : List Nat) : (Nat × Nat × Nat) × List Nat :=
  (List.range (limbs - 1)).foldl (sqStep x) ((0, 0, 0), [])

/-- Limb `N-1` of the square: `muldbladd3` over `i = 0 .. limbs/2 - 1`. -/
def sqPhase2 (x : List Nat) : (Nat × Nat × Nat) × List Nat :=
  match sqPhase1 x with
  | (kl, tmp) =>
    let r := (List.range (limbs / 2)).foldl
      (fun s i => muldbladd3 s (wval x i) (wval x (limbs - 1 - i))) kl
    ((r.2.1, r.2.2, 0), tmp ++ [r.1])

/-- `uint3072.Square`. -/
def squareGo (x : List Nat) : List Nat :=
  match sqPhase2 x with
  | (kl, tmp) =>
    match secondReduction (kl.1, kl.2.1) tmp with
    | ((lo, _hi), out) => finalReductions lo out

/-! #### `uint3072.Divide` -/

/-- Modelled from the spec: `math/big`'s `ModInverse(g, n)` (an external
collaborator, not part of this repository's sources) sets the receiver to
the multiplicative inverse of `g` in `Z/nZ` when `gcd(g, n) = 1`, and leaves
it unchanged otherwise. -/
def modInverse (g n : Nat) : Nat :=
  if Nat.gcd g n = 1 then ((Nat.gcdA g n) % (n : Int)).toNat else g

/-- The 48-limb little-endian decomposition of a natural number (the
`right.Bits()` read-back into a fresh `uint3072` in `Divide`). -/
def natToLimbs (v : Nat) : List Nat :=
  (List.range limbs).map fun i => v / B ^ i % B

/-- `uint3072.Divide`: canonicalize both operands in place, invert the
(canonicalized) right operand via `big.Int.ModInverse`, multiply.  Returns
the final states of `(lhs, rhs)`; note that the source `FullReduce`s `rhs`
in place when it is overflowing. -/
def divide (l r : List Nat) : List Nat × List Nat :=
  let l1 := if isOverflow l then fullReduce l else l
  let r1 := if isOverflow r then fullReduce r else r
  let inv := natToLimbs (modInverse (valList r1) prime)
  let l2 := mulGo l1 inv
  ((if isOverflow l2 then fullReduce l2 else l2), r1)

/-! ### The MuHash layer (`muhash.go`)

`muhash.go` stores the accumulator as two `num3072` values; the build-tag
alias binding `num3072` to an engine is not among the given sources, so the
pure-Go binding `num3072 = uint3072` is used (the claims also reference
`uint3072.IsOverflow` for the deserialization check; the cgo engine's
`Num3072_IsOverflow` is proved to coincide). -/

structure MuHashState where
  numerator : List Nat
  denominator : List Nat

/-- `NewMuHash`. -/
def newMuHash : MuHashState := ⟨one3072, one3072⟩

/-- `normalize`: `numerator.Divide(&denominator)` then `denominator.SetToOne()`. -/
def normalize (m : MuHashState) : MuHashState :=
  ⟨(divide m.numerator m.denominator).1, one3072⟩

/-- One little-endian 64-bit read, `binary.LittleEndian.Uint64(bytes[off:])`
(an external stdlib call, modelled by its contract). -/
def leUint64 (s : List Nat) (off : Nat) : Nat :=
  (List.range 8).foldr (fun k acc => s.getD (off + k) 0 * 256 ^ k + acc) 0

/-- `bytesToWordsLE`: 384 bytes to 48 words. -/
def bytesToWordsLE (s : List Nat) : List Nat :=
  (List.range limbs).map fun i => leUint64 s (8 * i)

/-- `binary.LittleEndian.PutUint64` of every limb in order (`serializeInner`'s
write loop): each word becomes its 8 little-endian bytes. -/
def wordsToBytes (w : List Nat) : List Nat :=
  w.flatMap fun v => (List.range 8).map fun k => v / 256 ^ k % 256

/-- `Serialize` (as the byte output of `serializeInner`, which first
normalizes the accumulator). -/
def serializeMu (m : MuHashState) : List Nat :=
  wordsToBytes (normalize m).numerator

/-- `DeserializeMuHash`: parse 384 little-endian bytes, reject (`none`, the
typed overflow error) iff the parsed numerator is overflowing. -/
def deserializeMu (s : List Nat) : Option MuHashState :=
  let numerator := bytesToWordsLE s
  if isOverflow numerator then none
  else some ⟨numerator, one3072⟩

/-- The integer represented by a little-endian byte string. -/
def byteVal (s : List Nat) : Nat := radixVal 256 s

/-- The limbs of `p` itself: `p = (B - primeDiff) + (B-1)·B + ... + (B-1)·B^47`. -/
def pLimbs : List Nat := (B - primeDiff) :: List.replicate (limbs - 1) (B - 1)

instance (x : List Nat) : Decidable (bounded x) :=
  inferInstanceAs (Decidable (x.length = limbs ∧ ∀ a ∈ x, a < B))

/-! ### Basic facts about the base and limb access -/

theorem B_eq : B = 18446744073709551616 := by norm_num [B]

theorem B_pos : 0 < B := by rw [B_eq]; omega

theorem wval_lt {x : List Nat} (hx : ∀ a ∈ x, a < B) (i : Nat) : wval x i < B := by
  induction x generalizing i with
  | nil => simp [wval, B_eq]
  | cons a t ih =>
    cases i with
    | zero => exact hx a (by simp)
    | succ k =>
      simpa [wval] using ih (fun b hb => hx b (by simp [hb])) k

/-! ### Exactness of the limb helpers -/

theorem muladd3_exact {l h c a b : Nat}
    (hl : l < B) (hh : h < B) (hc : c < B) (ha : a < B) (hb : b < B)
    (htot : l + h * B + c * (B * B) + a * b < B * (B * B)) :
    comps3 (muladd3 (l, h, c) a b) ∧
      val3 (muladd3 (l, h, c) a b) = l + h * B + c * (B * B) + a * b := by
  have hab : a * b ≤ (B - 1) * (B - 1) :=
    Nat.mul_le_mul (by omega) (by omega)
  simp only [muladd3, val3, comps3]
  obtain ⟨m, hm⟩ : ∃ m, a * b = m := ⟨_, rfl⟩
  rw [hm] at hab htot ⊢
  rw [B_eq] at hl hh hc hab htot ⊢
  omega

theorem muladd3_exact' {s : Nat × Nat × Nat} {a b : Nat}
    (hs : comps3 s) (ha : a < B) (hb : b < B)
    (htot : val3 s + a * b < B * (B * B)) :
    comps3 (muladd3 s a b) ∧ val3 (muladd3 s a b) = val3 s + a * b := by
  obtain ⟨l, h, c⟩ := s
  exact muladd3_exact hs.1 hs.2.1 hs.2.2 ha hb htot

theorem muldbladd3_exact' {s : Nat × Nat × Nat} {a b : Nat}
    (hs : comps3 s) (ha : a < B) (hb : b < B)
    (htot : val3 s + 2 * (a * b) < B * (B * B)) :
    comps3 (muldbladd3 s a b) ∧ val3 (muldbladd3 s a b) = val3 s + 2 * (a * b) := by
  obtain ⟨h1, e1⟩ := muladd3_exact' hs ha hb (by omega)
  obtain ⟨h2, e2⟩ := muladd3_exact' h1 ha hb (by rw [e1]; omega)
  refine ⟨h2, ?_⟩
  simp only [muldbladd3]
  rw [e2, e1]; ring

theorem mulnadd3_exact {c0 c1 z d0 d1 d2 n : Nat}
    (h0 : c0 < B) (h1 : c1 < B) (hd0 : d0 < B) (hd1 : d1 < B)
    (hd2 : d2 ≤ 2 ^ 40) (hn : n ≤ primeDiff) :
    comps3 (mulnadd3 (c0, c1, z) (d0, d1, d2) n) ∧
      val3 (mulnadd3 (c0, c1, z) (d0, d1, d2) n) =
        c0 + c1 * B + n * (d0 + d1 * B + d2 * (B * B)) := by
  have hrhs : c0 + c1 * B + n * (d0 + d1 * B + d2 * (B * B)) =
      c0 + c1 * B + d0 * n + d1 * n * B + d2 * n * (B * B) := by ring
  rw [hrhs]
  have hm0 : d0 * n ≤ (B - 1) * 1103717 :=
    Nat.mul_le_mul (by omega) (by simpa [primeDiff] using hn)
  have hm1 : d1 * n ≤ (B - 1) * 1103717 :=
    Nat.mul_le_mul (by omega) (by simpa [primeDiff] using hn)
  have hm2 : d2 * n ≤ 1213834128991780864 :=
    le_trans (Nat.mul_le_mul hd2 (by simpa [primeDiff] using hn)) (by norm_num)
  simp only [mulnadd3, val3, comps3]
  obtain ⟨m0, e0⟩ : ∃ m, d0 * n = m := ⟨_, rfl⟩
  obtain ⟨m1, e1⟩ : ∃ m, d1 * n = m := ⟨_, rfl⟩
  obtain ⟨m2, e2⟩ : ∃ m, d2 * n = m := ⟨_, rfl⟩
  rw [e0] at hm0 ⊢
  rw [e1] at hm1 ⊢
  rw [e2] at hm2 ⊢
  rw [B_eq] at h0 h1 hm0 hm1 ⊢
  omega

theorem muln2_exact {l h n : Nat} (hl : l < B) (hh : h < B)
    (htot : (l + h * B) * n < B * B) :
    (muln2 (l, h) n).1 < B ∧ (muln2 (l, h) n).2 < B ∧
      val2 (muln2 (l, h) n) = (l + h * B) * n := by
  have hexp : (l + h * B) * n = l * n + h * n * B := by ring
  rw [hexp] at htot ⊢
  simp only [muln2, val2]
  obtain ⟨m0, e0⟩ : ∃ m, l * n = m := ⟨_, rfl⟩
  obtain ⟨m1, e1⟩ : ∃ m, h * n = m := ⟨_, rfl⟩
  rw [e0, e1] at htot ⊢
  rw [B_eq] at htot ⊢
  omega

theorem addnextract2_exact {l h a : Nat} (hl : l < B) (hh : h < B) (ha : a < B)
    (htot : l + h * B + a < B * B) :
    addnextract2 l h a = ((l + h * B + a) % B, (l + h * B + a) / B, 0) := by
  simp only [addnextract2, Prod.mk.injEq]
  rw [B_eq] at hl hh ha htot ⊢
  refine ⟨by omega, by omega, by omega⟩

theorem addnextract2C_exact {l h a : Nat} (hl : l < B) (hh : h < B) (ha : a < B)
    (htot : l + h * B + a < B * B) :
    addnextract2C l h a = ((l + h * B + a) % B, (l + h * B + a) / B, 0) := by
  simp only [addnextract2C]
  rw [B_eq] at hl hh ha htot ⊢
  split
  · next hlt =>
    split
    · next hz =>
      simp only [Prod.mk.injEq]
      refine ⟨by omega, by omega, by omega⟩
    · next hz =>
      simp only [Prod.mk.injEq]
      refine ⟨by omega, by omega, trivial⟩
  · next hge =>
    simp only [Prod.mk.injEq]
    refine ⟨by omega, by omega, trivial⟩

/-! ### List sums and `radixVal` -/

theorem listSum_map_range (f : Nat → Nat) (n : Nat) :
    ((List.range n).map f).sum = ∑ i ∈ Finset.range n, f i := by
  induction n with
  | zero => simp
  | succ k ih => simp [List.range_succ, Finset.sum_range_succ, ih]

theorem listSum_map_range' (f : Nat → Nat) (n : Nat) :
    ∀ s : Nat, ((List.range' s n).map f).sum = ∑ i ∈ Finset.range n, f (s + i) := by
  induction n with
  | zero => simp
  | succ k ih =>
    intro s
    rw [List.range'_succ]
    simp only [List.map_cons, List.sum_cons, ih (s + 1)]
    rw [Finset.sum_range_succ']
    simp only [Nat.add_zero]
    have harg : ∀ i : Nat, s + 1 + i = s + (i + 1) := fun i => by omega
    simp only [harg]
    omega

theorem radixVal_append (b : Nat) (s t : List Nat) :
    radixVal b (s ++ t) = radixVal b s + b ^ s.length * radixVal b t := by
  induction s with
  | nil => simp [radixVal]
  | cons a s ih =>
    show a + b * radixVal b (s ++ t) =
      (a + b * radixVal b s) + b ^ (s.length + 1) * radixVal b t
    rw [ih]
    ring

theorem radixVal_lt {b : Nat} (hb : 0 < b) {x : List Nat} (hx : ∀ a ∈ x, a < b) :
    radixVal b x < b ^ x.length := by
  induction x with
  | nil => simpa [radixVal] using hb
  | cons a t ih =>
    have ha : a < b := hx a (by simp)
    have ht : radixVal b t < b ^ t.length := ih fun c hc => hx c (by simp [hc])
    simp only [radixVal, List.length_cons, pow_succ]
    calc a + b * radixVal b t < b + b * radixVal b t := by omega
    _ = b * (radixVal b t + 1) := by ring
    _ ≤ b * b ^ t.length := Nat.mul_le_mul_left b (by omega)
    _ = b ^ t.length * b := by ring

theorem radixVal_as_sum (b : Nat) (x : List Nat) :
    radixVal b x = ∑ i ∈ Finset.range x.length, x.getD i 0 * b ^ i := by
  induction x with
  | nil => simp [radixVal]
  | cons a t ih =>
    show a + b * radixVal b t =
      ∑ i ∈ Finset.range (t.length + 1), (a :: t).getD i 0 * b ^ i
    rw [Finset.sum_range_succ']
    simp only [List.getD_cons_succ, List.getD_cons_zero, pow_zero, mul_one]
    have hterm : ∀ i ∈ Finset.range t.length,
        t.getD i 0 * b ^ (i + 1) = b * (t.getD i 0 * b ^ i) := fun i _ => by ring
    rw [Finset.sum_congr rfl hterm, ← Finset.mul_sum, ih]
    omega

/-- A bounded digit list represents `b^n - 1` exactly when every digit is
maximal (stated for the limb base `B`). -/
theorem radixValB_max_iff {x : List Nat} (hx : ∀ a ∈ x, a < B) :
    radixVal B x = B ^ x.length - 1 ↔ ∀ a ∈ x, a = B - 1 := by
  induction x with
  | nil => simp [radixVal]
  | cons a t ih =>
    have ha : a < B := hx a (by simp)
    have hts : ∀ c ∈ t, c < B := fun c hc => hx c (by simp [hc])
    have ht : radixVal B t < B ^ t.length := radixVal_lt B_pos hts
    have hpow : 1 ≤ B ^ t.length := Nat.one_le_pow _ _ B_pos
    have hlen : (a :: t).length = t.length + 1 := rfl
    rw [hlen, pow_succ]
    have hstep : radixVal B (a :: t) = a + B * radixVal B t := rfl
    rw [hstep]
    obtain ⟨q, hq⟩ : ∃ q, B ^ t.length = q := ⟨_, rfl⟩
    rw [hq] at ht hpow ⊢
    constructor
    · intro he
      have ha' : a = B - 1 ∧ radixVal B t = q - 1 := by
        rw [B_eq] at ha he ⊢
        omega
      refine fun c hc => ?_
      rcases List.mem_cons.mp hc with rfl | hct
      · exact ha'.1
      · exact (ih hts).mp (by rw [hq]; omega) c hct
    · intro hall
      have ha' : a = B - 1 := hall a (by simp)
      have htv : radixVal B t = q - 1 := by
        rw [hq] at ih
        exact (ih hts).mpr fun c hc => hall c (by simp [hc])
      rw [ha', htv, B_eq] at *
      omega

/-! ### Columns of the 96-limb product -/

/-- The low-half column `j` of the double-width product,
`∑ i ≤ j, x[i] * y[j-i]` (for `j ≤ 47`). -/
def lowcol (x y : List Nat) (j : Nat) : Nat :=
  ∑ i ∈ Finset.range (j + 1), wval x i * wval y (j - i)

/-- The high-half column `48 + j` of the double-width product,
`∑ i = j+1 .. 47, x[i] * y[48+j-i]` (for `j ≤ 46`), reindexed. -/
def hicol (x y : List Nat) (j : Nat) : Nat :=
  ∑ i ∈ Finset.range (limbs - 1 - j), wval x (j + 1 + i) * wval y (limbs - 1 - i)

theorem valList_as_sum {x : List Nat} (hx : x.length = limbs) :
    valList x = ∑ i ∈ Finset.range 48, wval x i * B ^ i := by
  have := radixVal_as_sum B x
  rw [hx] at this
  simpa [valList, wval, limbs] using this

/-- The full product of two 48-limb numbers, decomposed into low and high
columns: `x * y = ∑_{j<48} lowcol j B^j + B^48 ∑_{j<47} hicol j B^j`. -/
theorem conv_identity {x y : List Nat} (hx : x.length = limbs) (hy : y.length = limbs) :
    valList x * valList y =
      (∑ j ∈ Finset.range 48, lowcol x y j * B ^ j) +
        B ^ 48 * ∑ j ∈ Finset.range 47, hicol x y j * B ^ j := by
  rw [valList_as_sum hx, valList_as_sum hy, Finset.sum_mul_sum]
  -- reindex the inner sum over k by the column index j = i + k
  have hinner : ∀ i ∈ Finset.range 48,
      (∑ k ∈ Finset.range 48, wval x i * B ^ i * (wval y k * B ^ k)) =
        ∑ j ∈ Finset.range 95,
          if i ≤ j ∧ j < i + 48 then wval x i * wval y (j - i) * B ^ j else 0 := by
    intro i hi
    have hi' : i < 48 := Finset.mem_range.mp hi
    have hset : Finset.filter (fun j => i ≤ j ∧ j < i + 48) (Finset.range 95) =
        Finset.Ico i (i + 48) := by
      ext j
      simp only [Finset.mem_filter, Finset.mem_range, Finset.mem_Ico]
      omega
    rw [← Finset.sum_filter, hset, Finset.sum_Ico_eq_sum_range]
    have hlen : i + 48 - i = 48 := by omega
    rw [hlen]
    refine Finset.sum_congr rfl fun k _ => ?_
    have h1 : i + k - i = k := by omega
    rw [h1, pow_add]
    ring
  rw [Finset.sum_congr rfl hinner, Finset.sum_comm]
  -- the inner sum over i evaluates to a single column
  have hlow : ∀ j ∈ Finset.range 48,
      (∑ i ∈ Finset.range 48,
          if i ≤ j ∧ j < i + 48 then wval x i * wval y (j - i) * B ^ j else 0) =
        lowcol x y j * B ^ j := by
    intro j hj
    have hj' : j < 48 := Finset.mem_range.mp hj
    have hset : Finset.filter (fun i => i ≤ j ∧ j < i + 48) (Finset.range 48) =
        Finset.range (j + 1) := by
      ext i
      simp only [Finset.mem_filter, Finset.mem_range]
      omega
    rw [← Finset.sum_filter, hset, lowcol, Finset.sum_mul]
  have hhigh : ∀ t ∈ Finset.range 47,
      (∑ i ∈ Finset.range 48,
          if i ≤ 48 + t ∧ 48 + t < i + 48 then
            wval x i * wval y (48 + t - i) * B ^ (48 + t) else 0) =
        B ^ 48 * (hicol x y t * B ^ t) := by
    intro t ht
    have ht' : t < 47 := Finset.mem_range.mp ht
    have hset : Finset.filter (fun i => i ≤ 48 + t ∧ 48 + t < i + 48) (Finset.range 48) =
        Finset.Ico (t + 1) 48 := by
      ext i
      simp only [Finset.mem_filter, Finset.mem_range, Finset.mem_Ico]
      omega
    rw [← Finset.sum_filter, hset, Finset.sum_Ico_eq_sum_range]
    have hlen2 : 48 - (t + 1) = 47 - t := by omega
    have hcnt : limbs - 1 - t = 47 - t := by simp [limbs]
    rw [hlen2, hicol, hcnt, Finset.sum_mul, Finset.mul_sum]
    refine Finset.sum_congr rfl fun k hk => ?_
    have hk' : k < 47 - t := Finset.mem_range.mp hk
    have h1 : 48 + t - (t + 1 + k) = 47 - k := by omega
    have h2 : limbs - 1 - k = 47 - k := by simp [limbs]
    have h3 : t + 1 + k = k + (t + 1) := by omega
    rw [h2, ← h1, h3, pow_add]
    ring
  -- split the columns at j = 48
  have hsplit : ∀ f : Nat → Nat, (∑ j ∈ Finset.range 95, f j) =
      (∑ j ∈ Finset.range 48, f j) + ∑ t ∈ Finset.range 47, f (48 + t) := by
    intro f
    have h0 : (Finset.range 95) = Finset.Ico 0 48 ∪ Finset.Ico 48 95 := by
      rw [Finset.Ico_union_Ico_eq_Ico (by omega) (by omega), Finset.range_eq_Ico]
    rw [h0, Finset.sum_union (Finset.Ico_disjoint_Ico_consecutive 0 48 95),
      ← Finset.range_eq_Ico, Finset.sum_Ico_eq_sum_range]
  rw [hsplit, Finset.sum_congr rfl hlow, Finset.sum_congr rfl hhigh, ← Finset.mul_sum]

/-! ### Fold lemmas for the column loops -/

theorem muladd3_fold (u v : Nat → Nat) (is : List Nat) :
    ∀ s : Nat × Nat × Nat,
      comps3 s →
      (∀ i ∈ is, u i < B ∧ v i < B) →
      val3 s + (is.map fun i => u i * v i).sum < B * (B * B) →
      comps3 (is.foldl (fun t i => muladd3 t (u i) (v i)) s) ∧
        val3 (is.foldl (fun t i => muladd3 t (u i) (v i)) s) =
          val3 s + (is.map fun i => u i * v i).sum := by
  induction is with
  | nil => intro s hs _ _; simpa using hs
  | cons i is ih =>
    intro s hs hb htot
    simp only [List.map_cons, List.sum_cons] at htot
    obtain ⟨hi, hv⟩ := hb i (by simp)
    obtain ⟨h1, e1⟩ := muladd3_exact' hs hi hv (by omega)
    simp only [List.foldl_cons, List.map_cons, List.sum_cons]
    obtain ⟨h2, e2⟩ := ih (muladd3 s (u i) (v i)) h1
      (fun j hj => hb j (by simp [hj])) (by rw [e1]; omega)
    exact ⟨h2, by rw [e2, e1]; ring⟩

theorem muldbladd3_fold (u v : Nat → Nat) (is : List Nat) :
    ∀ s : Nat × Nat × Nat,
      comps3 s →
      (∀ i ∈ is, u i < B ∧ v i < B) →
      val3 s + (is.map fun i => 2 * (u i * v i)).sum < B * (B * B) →
      comps3 (is.foldl (fun t i => muldbladd3 t (u i) (v i)) s) ∧
        val3 (is.foldl (fun t i => muldbladd3 t (u i) (v i)) s) =
          val3 s + (is.map fun i => 2 * (u i * v i)).sum := by
  induction is with
  | nil => intro s hs _ _; simpa using hs
  | cons i is ih =>
    intro s hs hb htot
    simp only [List.map_cons, List.sum_cons] at htot
    obtain ⟨hi, hv⟩ := hb i (by simp)
    obtain ⟨h1, e1⟩ := muldbladd3_exact' hs hi hv (by omega)
    simp only [List.foldl_cons, List.map_cons, List.sum_cons]
    obtain ⟨h2, e2⟩ := ih (muldbladd3 s (u i) (v i)) h1
      (fun j hj => hb j (by simp [hj])) (by rw [e1]; omega)
    exact ⟨h2, by rw [e2, e1]; ring⟩

theorem lowcol_le {x y : List Nat} (hx : ∀ a ∈ x, a < B) (hy : ∀ a ∈ y, a < B)
    {j : Nat} (hj : j ≤ 47) : lowcol x y j ≤ 48 * ((B - 1) * (B - 1)) := by
  have h1 : lowcol x y j ≤ (Finset.range (j + 1)).card • ((B - 1) * (B - 1)) := by
    refine Finset.sum_le_card_nsmul _ _ _ fun i _ => ?_
    exact Nat.mul_le_mul (by have := wval_lt hx i; omega) (by have := wval_lt hy (j - i); omega)
  rw [Finset.card_range, smul_eq_mul] at h1
  calc lowcol x y j ≤ (j + 1) * ((B - 1) * (B - 1)) := h1
  _ ≤ 48 * ((B - 1) * (B - 1)) := Nat.mul_le_mul_right _ (by omega)

theorem hicol_le {x y : List Nat} (hx : ∀ a ∈ x, a < B) (hy : ∀ a ∈ y, a < B)
    (j : Nat) : hicol x y j ≤ 47 * ((B - 1) * (B - 1)) := by
  have h1 : hicol x y j ≤ (Finset.range (limbs - 1 - j)).card • ((B - 1) * (B - 1)) := by
    refine Finset.sum_le_card_nsmul _ _ _ fun i _ => ?_
    exact Nat.mul_le_mul (by have := wval_lt hx (j + 1 + i); omega)
      (by have := wval_lt hy (limbs - 1 - i); omega)
  rw [Finset.card_range, smul_eq_mul] at h1
  calc hicol x y j ≤ (limbs - 1 - j) * ((B - 1) * (B - 1)) := h1
  _ ≤ 47 * ((B - 1) * (B - 1)) := Nat.mul_le_mul_right _ (by simp only [limbs]; omega)

/-- Crude bound for the column sums: at most `n` products of machine words. -/
theorem listSum_prod_le (u v : Nat → Nat) (is : List Nat)
    (hb : ∀ i ∈ is, u i < B ∧ v i < B) :
    (is.map fun i => u i * v i).sum ≤ is.length * ((B - 1) * (B - 1)) := by
  induction is with
  | nil => simp
  | cons i is ih =>
    obtain ⟨hi, hv⟩ := hb i (by simp)
    have h1 : u i * v i ≤ (B - 1) * (B - 1) :=
      Nat.mul_le_mul (by omega) (by omega)
    have h2 := ih fun j hj => hb j (by simp [hj])
    simp only [List.map_cons, List.sum_cons, List.length_cons]
    calc u i * v i + (is.map fun i => u i * v i).sum
        ≤ (B - 1) * (B - 1) + is.length * ((B - 1) * (B - 1)) := by omega
    _ = (is.length + 1) * ((B - 1) * (B - 1)) := by ring

/-! ### The column loops of `Mul` compute the columns -/

theorem hiCol_spec {x y : List Nat} (hx : ∀ a ∈ x, a < B) (hy : ∀ a ∈ y, a < B)
    {j : Nat} (hj : j < 47) :
    comps3 (hiCol x y j) ∧ val3 (hiCol x y j) = hicol x y j := by
  have hp : wval x (1 + j) * wval y (limbs + j - (1 + j)) ≤ (B - 1) * (B - 1) :=
    Nat.mul_le_mul (by have := wval_lt hx (1 + j); omega)
      (by have := wval_lt hy (limbs + j - (1 + j)); omega)
  have hs0 : comps3 (wval x (1 + j) * wval y (limbs + j - (1 + j)) % B,
      wval x (1 + j) * wval y (limbs + j - (1 + j)) / B, 0) := by
    refine ⟨Nat.mod_lt _ B_pos, ?_, B_pos⟩
    rw [B_eq] at hp ⊢
    omega
  have hv0 : val3 (wval x (1 + j) * wval y (limbs + j - (1 + j)) % B,
      wval x (1 + j) * wval y (limbs + j - (1 + j)) / B, 0) =
      wval x (1 + j) * wval y (limbs + j - (1 + j)) := by
    simp only [val3]
    rw [B_eq]
    omega
  obtain ⟨hc, hv⟩ := muladd3_fold (fun i => wval x i) (fun i => wval y (limbs + j - i))
    (List.range' (2 + j) (limbs - (2 + j))) _ hs0
    (fun i _ => ⟨wval_lt hx i, wval_lt hy (limbs + j - i)⟩)
    (by
      simp only []
      have hsum := listSum_prod_le (fun i => wval x i) (fun i => wval y (limbs + j - i))
        (List.range' (2 + j) (limbs - (2 + j)))
        (fun i _ => ⟨wval_lt hx i, wval_lt hy (limbs + j - i)⟩)
      simp only [List.length_range'] at hsum
      have h46 : limbs - (2 + j) ≤ 46 := by simp only [limbs]; omega
      have hS46 := le_trans hsum (Nat.mul_le_mul_right ((B - 1) * (B - 1)) h46)
      rw [hv0]
      rw [B_eq] at hp hS46 ⊢
      omega)
  refine ⟨hc, ?_⟩
  simp only [hiCol]
  rw [hv, hv0, listSum_map_range']
  -- reassemble the first term and the folded terms into the full column
  simp only [hicol]
  have hcnt : limbs - 1 - j = (limbs - (2 + j)) + 1 := by simp only [limbs]; omega
  rw [hcnt, Finset.sum_range_succ']
  have hfirst : wval x (j + 1 + 0) * wval y (limbs - 1 - 0) =
      wval x (1 + j) * wval y (limbs + j - (1 + j)) := by
    have e1 : j + 1 + 0 = 1 + j := by omega
    have e2 : limbs - 1 - 0 = limbs + j - (1 + j) := by simp only [limbs]; omega
    rw [e1, e2]
  rw [hfirst]
  have hterm : ∀ i ∈ Finset.range (limbs - (2 + j)),
      wval x (j + 1 + (i + 1)) * wval y (limbs - 1 - (i + 1)) =
        wval x (2 + j + i) * wval y (limbs + j - (2 + j + i)) := by
    intro i hi
    have e1 : j + 1 + (i + 1) = 2 + j + i := by omega
    have e2 : limbs - 1 - (i + 1) = limbs + j - (2 + j + i) := by
      simp only [limbs]; omega
    rw [e1, e2]
  rw [Finset.sum_congr rfl hterm]
  omega

theorem lowColAdd_spec {x y : List Nat} (hx : ∀ a ∈ x, a < B) (hy : ∀ a ∈ y, a < B)
    {j : Nat} {s : Nat × Nat × Nat} (hs : comps3 s)
    (htot : val3 s + lowcol x y j < B * (B * B)) :
    comps3 (lowColAdd x y j s) ∧ val3 (lowColAdd x y j s) = val3 s + lowcol x y j := by
  have hsum : ((List.range (j + 1)).map (fun i => wval x i * wval y (j - i))).sum =
      lowcol x y j := by
    rw [listSum_map_range]
    simp only [lowcol]
  obtain ⟨hc, hv⟩ := muladd3_fold (fun i => wval x i) (fun i => wval y (j - i))
    (List.range (j + 1)) s hs
    (fun i _ => ⟨wval_lt hx i, wval_lt hy (j - i)⟩)
    (by simp only []; rw [hsum]; exact htot)
  refine ⟨?_, ?_⟩
  · simpa only [lowColAdd] using hc
  · simp only [lowColAdd]
    rw [hv, hsum]

/-! ### The outer loop invariant, generic in the per-column step -/

/-- Shape of one outer iteration of `Mul`/`Square`: it appends one extracted
limb and shifts the running accumulator, adding the `j`-th column value. -/
def stepOK (Scol : Nat → Nat)
    (st : ((Nat × Nat × Nat) × List Nat) → Nat → ((Nat × Nat × Nat) × List Nat)) : Prop :=
  ∀ s : (Nat × Nat × Nat) × List Nat, ∀ j : Nat, j < limbs - 1 →
    comps3 s.1 → s.1.2.2 = 0 → val3 s.1 < 2 ^ 28 * B →
    ∃ q : Nat × Nat × Nat,
      st s j = ((q.2.1, q.2.2, 0), s.2 ++ [q.1]) ∧ comps3 q ∧
        val3 q = val3 s.1 + Scol j

/-- Invariant after `n` outer iterations of `Mul`/`Square`. -/
def loopInv (Scol : Nat → Nat) (n : Nat) (r : (Nat × Nat × Nat) × List Nat) : Prop :=
  comps3 r.1 ∧ r.1.2.2 = 0 ∧ val3 r.1 < 2 ^ 28 * B ∧ r.2.length = n ∧
    (∀ t ∈ r.2, t < B) ∧
    radixVal B r.2 + val3 r.1 * B ^ n = ∑ k ∈ Finset.range n, Scol k * B ^ k

theorem phase1_inv {Scol : Nat → Nat}
    {st : ((Nat × Nat × Nat) × List Nat) → Nat → ((Nat × Nat × Nat) × List Nat)}
    (hst : stepOK Scol st)
    (hS : ∀ j, j < 47 → Scol j ≤ 2 ^ 26 * (B * B)) :
    ∀ n, n ≤ 47 → loopInv Scol n ((List.range n).foldl st ((0, 0, 0), [])) := by
  intro n
  induction n with
  | zero =>
    intro _
    simp only [List.range_zero, List.foldl_nil]
    refine ⟨⟨B_pos, B_pos, B_pos⟩, rfl, ?_, rfl, by simp, by simp [radixVal, val3]⟩
    simp only [val3]
    rw [B_eq]
    omega
  | succ n ih =>
    intro hn
    obtain ⟨hc, hz, hv, hlen, hlimb, hsum⟩ := ih (by omega)
    rw [List.range_succ, List.foldl_append, List.foldl_cons, List.foldl_nil]
    rcases hF : (List.range n).foldl st ((0, 0, 0), []) with ⟨⟨f0, f1, f2⟩, ftmp⟩
    rw [hF] at hc hz hv hlen hlimb hsum
    simp only [] at hc hz hv hlen hlimb hsum
    have hf2 : f2 = 0 := hz
    subst hf2
    obtain ⟨q, heq, hcq, hvq⟩ :=
      hst ((f0, f1, 0), ftmp) n (by simp only [limbs]; omega) hc rfl hv
    rw [heq]
    obtain ⟨a, b, c⟩ := q
    have hSn := hS n (by omega)
    simp only [val3] at hvq hv hsum
    refine ⟨⟨hcq.2.1, hcq.2.2, B_pos⟩, rfl, ?_, ?_, ?_, ?_⟩
    · -- the shifted accumulator stays small
      simp only [val3]
      rw [B_eq] at hv hSn hvq ⊢
      omega
    · simp only [List.length_append, List.length_cons, List.length_nil, hlen]
    · intro t ht
      rcases List.mem_append.mp ht with h | h
      · exact hlimb t h
      · have : t = a := by simpa using h
        rw [this]; exact hcq.1
    · -- the streamed value identity
      show radixVal B (ftmp ++ [a]) + val3 (b, c, 0) * B ^ (n + 1) =
        ∑ k ∈ Finset.range (n + 1), Scol k * B ^ k
      rw [radixVal_append, hlen]
      have h1 : radixVal B [a] = a := by simp [radixVal]
      rw [h1]
      simp only [val3]
      calc radixVal B ftmp + B ^ n * a + (b + c * B + 0 * (B * B)) * B ^ (n + 1)
          = radixVal B ftmp + (a + b * B + c * (B * B)) * B ^ n := by ring
        _ = radixVal B ftmp + (f0 + f1 * B + 0 * (B * B) + Scol n) * B ^ n := by rw [hvq]
        _ = (radixVal B ftmp + (f0 + f1 * B + 0 * (B * B)) * B ^ n) + Scol n * B ^ n := by
            ring
        _ = (∑ k ∈ Finset.range n, Scol k * B ^ k) + Scol n * B ^ n := by rw [hsum]
        _ = ∑ k ∈ Finset.range (n + 1), Scol k * B ^ k := by
            rw [Finset.sum_range_succ]

/-- `mulStep` has the required shape, with column value
`lowcol j + primeDiff * hicol j`. -/
theorem mulStep_ok {x y : List Nat} (hx : bounded x) (hy : bounded y) :
    stepOK (fun j => lowcol x y j + primeDiff * hicol x y j) (mulStep x y) := by
  obtain ⟨hxl, hxb⟩ := hx
  obtain ⟨hyl, hyb⟩ := hy
  intro s j hj hcomp hz hval
  obtain ⟨⟨k0, k1, k2⟩, tmp⟩ := s
  have hj' : j < 47 := by simp only [limbs] at hj; omega
  have hk2 : k2 = 0 := hz
  subst hk2
  obtain ⟨hhc, hhv⟩ := hiCol_spec hxb hyb hj'
  rcases hHC : hiCol x y j with ⟨d0, d1, d2⟩
  rw [hHC] at hhc hhv
  simp only [val3] at hhv
  have hhi_le : hicol x y j ≤ 47 * ((B - 1) * (B - 1)) := hicol_le hxb hyb j
  have hlo_le : lowcol x y j ≤ 48 * ((B - 1) * (B - 1)) := lowcol_le hxb hyb (by omega)
  have hd2 : d2 ≤ 2 ^ 40 := by
    have h1 : d2 * (B * B) ≤ hicol x y j := by omega
    rw [B_eq] at h1
    rw [B_eq] at hhi_le
    omega
  obtain ⟨hmc, hmv⟩ := mulnadd3_exact (n := primeDiff) hcomp.1 hcomp.2.1
    hhc.1 hhc.2.1 hd2 le_rfl
  rw [hhv] at hmv
  have hval' : val3 (k0, k1, 0) = k0 + k1 * B := by
    simp only [val3]; ring
  rw [hval'] at hval
  have htot : val3 (mulnadd3 (k0, k1, 0) (d0, d1, d2) primeDiff) + lowcol x y j <
      B * (B * B) := by
    rw [hmv]
    rw [B_eq] at hval hhi_le hlo_le ⊢
    simp only [primeDiff]
    omega
  obtain ⟨hfc, hfv⟩ := lowColAdd_spec hxb hyb hmc htot
  refine ⟨lowColAdd x y j (mulnadd3 (k0, k1, 0) (hiCol x y j) primeDiff), ?_, ?_, ?_⟩
  · rfl
  · rw [hHC]; exact hfc
  · rw [hHC, hfv, hmv, hval']
    simp only [primeDiff]
    ring


/-! ### The streaming add-and-extract loop -/

theorem anxFold_spec (ts : List Nat) :
    ∀ (l h : Nat) (out : List Nat), l < B → h < B → l + h * B ≤ B * B - B →
      (∀ t ∈ ts, t < B) →
      ∃ (new : List Nat) (fl fh : Nat),
        ts.foldl anxStep ((l, h), out) = ((fl, fh), out ++ new) ∧
        new.length = ts.length ∧ (∀ b ∈ new, b < B) ∧ fl < B ∧ fh < B ∧
        fl + fh * B ≤ B * B - B ∧
        radixVal B new + (fl + fh * B) * B ^ ts.length = (l + h * B) + radixVal B ts ∧
        ((ts ≠ [] ∨ h = 0) → fh = 0) := by
  induction ts with
  | nil =>
    intro l h out hl hh hb _
    refine ⟨[], l, h, by simp, rfl, by simp, hl, hh, hb, by simp [radixVal], ?_⟩
    rintro (habs | hz)
    · exact absurd rfl habs
    · exact hz
  | cons t ts ih =>
    intro l h out hl hh hb hts
    have ht : t < B := hts t (by simp)
    have hstep : anxStep ((l, h), out) t =
        (((l + h * B + t) / B, 0), out ++ [(l + h * B + t) % B]) := by
      have he := addnextract2_exact hl hh ht (by rw [B_eq] at *; omega)
      simp only [anxStep, he]
    have hdiv : (l + h * B + t) / B < B := by
      rw [B_eq] at hl hh ht hb ⊢
      omega
    have hble : (l + h * B + t) / B + 0 * B ≤ B * B - B := by
      rw [B_eq] at hdiv ⊢
      omega
    simp only [List.foldl_cons, hstep]
    obtain ⟨new, fl, fh, heq, hlen, hnb, hfl, hfh, hfb, hval, hz⟩ :=
      ih ((l + h * B + t) / B) 0 (out ++ [(l + h * B + t) % B]) hdiv B_pos hble
        (fun u hu => hts u (by simp [hu]))
    refine ⟨(l + h * B + t) % B :: new, fl, fh, ?_, by simp [hlen], ?_, hfl, hfh, hfb, ?_, ?_⟩
    · rw [heq, List.append_assoc, List.singleton_append]
    · intro b hbm
      rcases List.mem_cons.mp hbm with rfl | hbm
      · exact Nat.mod_lt _ B_pos
      · exact hnb b hbm
    · -- value identity
      have hmd : (l + h * B + t) % B + B * ((l + h * B + t) / B) = l + h * B + t :=
        Nat.mod_add_div _ _
      have hcons : radixVal B (t :: ts) = t + B * radixVal B ts := rfl
      have hnew : radixVal B ((l + h * B + t) % B :: new) =
          (l + h * B + t) % B + B * radixVal B new := rfl
      rw [hnew, hcons]
      calc (l + h * B + t) % B + B * radixVal B new +
            (fl + fh * B) * B ^ (t :: ts).length
          = (l + h * B + t) % B +
              B * (radixVal B new + (fl + fh * B) * B ^ ts.length) := by
            have hc1 : (t :: ts).length = ts.length + 1 := rfl
            rw [hc1]; ring
        _ = (l + h * B + t) % B + B * ((l + h * B + t) / B + 0 * B + radixVal B ts) := by
            rw [hval]
        _ = ((l + h * B + t) % B + B * ((l + h * B + t) / B)) + B * radixVal B ts := by
            ring
        _ = (l + h * B + t) + B * radixVal B ts := by rw [hmd]
        _ = l + h * B + (t + B * radixVal B ts) := by ring
    · intro _
      exact hz (Or.inr rfl)

/-! ### `FullReduce` and `IsOverflow` -/

theorem valList_lt {x : List Nat} (hx : bounded x) : valList x < B ^ 48 := by
  obtain ⟨hlen, hlb⟩ := hx
  have := radixVal_lt B_pos hlb
  rw [hlen] at this
  exact this

theorem fullReduce_spec {x : List Nat} (hx : bounded x) :
    bounded (fullReduce x) ∧
      valList (fullReduce x) = (valList x + primeDiff) % B ^ 48 := by
  obtain ⟨hlen, hlb⟩ := hx
  have hpd : primeDiff < B := by rw [B_eq]; simp only [primeDiff]; omega
  have hble : primeDiff + 0 * B ≤ B * B - B := by
    rw [B_eq]; simp only [primeDiff]; omega
  obtain ⟨new, fl, fh, heq, hlen', hnb, hfl, hfh, hfb, hval, hz⟩ :=
    anxFold_spec x primeDiff 0 [] hpd B_pos hble hlb
  have hfr : fullReduce x = new := by
    simp only [fullReduce, heq, List.nil_append]
  have hlen48 : new.length = limbs := by rw [hlen', hlen]
  have hnew_lt : radixVal B new < B ^ 48 := by
    have := radixVal_lt B_pos hnb
    rw [hlen48] at this
    exact this
  rw [hfr]
  rw [hlen] at hval
  have hx48 : (limbs : Nat) = 48 := rfl
  rw [hx48] at hval
  refine ⟨⟨hlen48, hnb⟩, ?_⟩
  have hswap : valList x + primeDiff = radixVal B new + (fl + fh * B) * B ^ 48 := by
    rw [hval]
    simp only [valList]
    ring
  show radixVal B new = (valList x + primeDiff) % B ^ 48
  rw [hswap, Nat.add_mul_mod_self_right, Nat.mod_eq_of_lt hnew_lt]

/-- The Booleans returned by the Go and the C overflow checks agree. -/
theorem num3072IsOverflow_eq (x : List Nat) : num3072IsOverflow x = isOverflow x := rfl

theorem forall_mem_iff_getD {l : List Nat} {c : Nat} :
    (∀ a ∈ l, a = c) ↔ ∀ k, k < l.length → l.getD k 0 = c := by
  induction l with
  | nil => simp
  | cons a t ih =>
    constructor
    · intro hall k hk
      cases k with
      | zero => exact hall a (by simp)
      | succ m =>
        simp only [List.getD_cons_succ]
        exact ih.mp (fun b hb => hall b (by simp [hb])) m
          (by simpa [Nat.succ_lt_succ_iff] using hk)
    · intro hk b hb
      rcases List.mem_cons.mp hb with rfl | hbt
      · simpa using hk 0 (by simp)
      · refine ih.mpr (fun m hm => ?_) b hbt
        have := hk (m + 1) (by simpa [Nat.succ_lt_succ_iff] using hm)
        simpa using this

theorem isOverflow_iff {x : List Nat} (hx : bounded x) :
    isOverflow x = true ↔ prime ≤ valList x := by
  obtain ⟨hlen, hlb⟩ := hx
  cases x with
  | nil => simp [limbs] at hlen
  | cons x0 rest =>
    have hrl : rest.length = 47 := by
      simpa [limbs] using congrArg (· - 1) hlen
    have hx0 : x0 < B := hlb x0 (by simp)
    have hrb : ∀ a ∈ rest, a < B := fun a ha => hlb a (by simp [ha])
    have hrest_lt : radixVal B rest < B ^ 47 := by
      have := radixVal_lt B_pos hrb
      rw [hrl] at this
      exact this
    -- reduce the Boolean test to a proposition about the limbs
    have hbool : isOverflow (x0 :: rest) = true ↔
        (B - 1 - primeDiff < x0 ∧ ∀ a ∈ rest, a = B - 1) := by
      simp only [isOverflow]
      split
      · next hle =>
        simp only [Bool.false_eq_true, false_iff]
        rintro ⟨hgt, -⟩
        simp only [wval, List.getD_cons_zero] at hle
        omega
      · next hle =>
        simp only [wval, List.getD_cons_zero] at hle
        rw [List.all_eq_true]
        constructor
        · intro hall
          refine ⟨by omega, ?_⟩
          rw [forall_mem_iff_getD]
          intro k hk
          have hmem : (k + 1) ∈ List.range' 1 (limbs - 1) := by
            rw [List.mem_range'_1]
            rw [hrl] at hk
            simp only [limbs]
            omega
          have := hall (k + 1) hmem
          simpa [wval] using this
        · rintro ⟨-, hmax⟩ i hi
          rw [List.mem_range'_1] at hi
          obtain ⟨hi1, hi2⟩ := hi
          obtain ⟨k, rfl⟩ : ∃ k, i = k + 1 := ⟨i - 1, by omega⟩
          have hk : k < rest.length := by
            rw [hrl]
            simp only [limbs] at hi2
            omega
          have := (forall_mem_iff_getD.mp hmax) k hk
          simp only [wval, List.getD_cons_succ]
          simpa using this
    rw [hbool]
    -- now a value computation
    have hv : valList (x0 :: rest) = x0 + B * radixVal B rest := rfl
    rw [hv]
    have hmax_iff := radixValB_max_iff hrb
    rw [hrl] at hmax_iff
    have hpow : B ^ 48 = B ^ 47 * B := by rw [← pow_succ]
    constructor
    · rintro ⟨hgt, hmax⟩
      have hrv : radixVal B rest = B ^ 47 - 1 := hmax_iff.mpr hmax
      rw [hrv]
      simp only [prime, primeDiff] at *
      obtain ⟨q, hq⟩ : ∃ q, B ^ 47 = q := ⟨_, rfl⟩
      rw [hq] at hpow ⊢
      have hq1 : 1 ≤ q := by
        rw [← hq]
        exact Nat.one_le_pow _ _ B_pos
      rw [hpow]
      rw [B_eq] at *
      omega
    · intro hge
      by_cases hmax : ∀ a ∈ rest, a = B - 1
      · refine ⟨?_, hmax⟩
        have hrv : radixVal B rest = B ^ 47 - 1 := hmax_iff.mpr hmax
        rw [hrv] at hge
        simp only [prime, primeDiff] at *
        obtain ⟨q, hq⟩ : ∃ q, B ^ 47 = q := ⟨_, rfl⟩
        rw [hq] at hpow hge
        have hq1 : 1 ≤ q := by
          rw [← hq]
          exact Nat.one_le_pow _ _ B_pos
        rw [hpow] at hge
        rw [B_eq] at *
        omega
      · exfalso
        have hrv : radixVal B rest ≠ B ^ 47 - 1 := fun he => hmax (hmax_iff.mp he)
        simp only [prime, primeDiff] at hge
        obtain ⟨q, hq⟩ : ∃ q, B ^ 47 = q := ⟨_, rfl⟩
        rw [hq] at hpow hrest_lt hrv
        have hq1 : 1 ≤ q := by
          rw [← hq]
          exact Nat.one_le_pow _ _ B_pos
        rw [hpow] at hge
        rw [B_eq] at *
        omega

/-! ### Phase 2 of `Mul`: the partially reduced product -/

/-- The partially reduced product `L + primeDiff * H`, where
`x * y = L + 2^3072 * H` columnwise. -/
def mulT (x y : List Nat) : Nat :=
  (∑ j ∈ Finset.range 48, lowcol x y j * B ^ j) +
    primeDiff * ∑ j ∈ Finset.range 47, hicol x y j * B ^ j

theorem mulT_sum (x y : List Nat) :
    (∑ k ∈ Finset.range 47, (lowcol x y k + primeDiff * hicol x y k) * B ^ k) +
        lowcol x y 47 * B ^ 47 = mulT x y := by
  have hsplit : ∀ k ∈ Finset.range 47,
      (lowcol x y k + primeDiff * hicol x y k) * B ^ k =
        lowcol x y k * B ^ k + primeDiff * (hicol x y k * B ^ k) := by
    intro k _
    ring
  have h48 : (∑ j ∈ Finset.range 48, lowcol x y j * B ^ j) =
      (∑ j ∈ Finset.range 47, lowcol x y j * B ^ j) + lowcol x y 47 * B ^ 47 := by
    have := Finset.sum_range_succ (fun j => lowcol x y j * B ^ j) 47
    simpa using this
  rw [Finset.sum_congr rfl hsplit, Finset.sum_add_distrib, ← Finset.mul_sum, mulT, h48]
  ring

theorem mulPhase2_spec {x y : List Nat} (hx : bounded x) (hy : bounded y) :
    ∃ (k0 k1 : Nat) (tmp : List Nat),
      mulPhase2 x y = ((k0, k1, 0), tmp) ∧
      tmp.length = 48 ∧ (∀ t ∈ tmp, t < B) ∧
      k0 < B ∧ k1 < B ∧ k0 + k1 * B < 2 ^ 7 * B ∧
      radixVal B tmp + (k0 + k1 * B) * B ^ 48 = mulT x y := by
  have hxb := hx.2
  have hyb := hy.2
  have hS : ∀ j, j < 47 → lowcol x y j + primeDiff * hicol x y j ≤ 2 ^ 26 * (B * B) := by
    intro j hj
    have h1 := lowcol_le hxb hyb (by omega : j ≤ 47)
    have h2 := hicol_le hxb hyb j
    rw [B_eq] at h1 h2 ⊢
    simp only [primeDiff]
    omega
  have hInv := phase1_inv (mulStep_ok hx hy) hS 47 le_rfl
  have hP1 : mulPhase1 x y = (List.range 47).foldl (mulStep x y) ((0, 0, 0), []) := rfl
  rw [← hP1] at hInv
  rcases hF : mulPhase1 x y with ⟨⟨f0, f1, f2⟩, tmp47⟩
  rw [hF] at hInv
  obtain ⟨hc, hz, hv, hlen, hlimb, hsum⟩ := hInv
  have hf2 : f2 = 0 := hz
  subst hf2
  simp only [] at hc hv hlen hlimb hsum
  have e48 : (47 : Nat) + 1 = 48 := rfl
  have hsum47 : ((List.range limbs).map
      (fun i => wval x i * wval y (limbs - 1 - i))).sum = lowcol x y 47 := by
    rw [listSum_map_range]
    rw [lowcol, e48]
    rfl
  have hlo := lowcol_le hxb hyb (le_refl 47)
  obtain ⟨hrc, hrv⟩ := muladd3_fold (fun i => wval x i) (fun i => wval y (limbs - 1 - i))
    (List.range limbs) (f0, f1, 0) hc
    (fun i _ => ⟨wval_lt hxb i, wval_lt hyb (limbs - 1 - i)⟩)
    (by
      rw [hsum47]
      simp only [val3] at hv ⊢
      rw [B_eq] at hv hlo ⊢
      omega)
  rcases hR : (List.range limbs).foldl
      (fun s i => muladd3 s (wval x i) (wval y (limbs - 1 - i))) (f0, f1, 0) with ⟨a, bb, cc⟩
  rw [hR] at hrc hrv
  rw [hsum47] at hrv
  simp only [val3] at hrv hv
  refine ⟨bb, cc, tmp47 ++ [a], ?_, ?_, ?_, hrc.2.1, hrc.2.2, ?_, ?_⟩
  · simp only [mulPhase2, hF, hR]
  · simp only [List.length_append, List.length_cons, List.length_nil, hlen]
  · intro t ht
    rcases List.mem_append.mp ht with h | h
    · exact hlimb t h
    · have : t = a := by simpa using h
      rw [this]; exact hrc.1
  · rw [B_eq] at hrv hv hlo ⊢
    omega
  · rw [radixVal_append, hlen]
    have h1 : radixVal B [a] = a := by simp [radixVal]
    have hv3 : val3 (f0, f1, 0) = f0 + f1 * B + 0 * (B * B) := rfl
    rw [h1, ← mulT_sum, ← hsum]
    calc radixVal B tmp47 + B ^ 47 * a + (bb + cc * B) * B ^ 48
        = radixVal B tmp47 + (a + bb * B + cc * (B * B)) * B ^ 47 := by ring
      _ = radixVal B tmp47 +
            (f0 + f1 * B + 0 * (B * B) + lowcol x y 47) * B ^ 47 := by rw [hrv]
      _ = radixVal B tmp47 + val3 (f0, f1, 0) * B ^ 47 + lowcol x y 47 * B ^ 47 := by
          rw [hv3]
          ring

/-! ### The second reduction and the final conditional reductions -/

theorem prime_facts :
    prime + primeDiff = B ^ 48 ∧ B * B + primeDiff ≤ prime ∧ 0 < prime := by
  have hpow : B * (B * B) ≤ B ^ 48 := by
    have h3 : B * (B * B) = B ^ 3 := by ring
    rw [h3]
    exact Nat.pow_le_pow_right (by rw [B_eq]; omega) (by omega)
  simp only [prime, primeDiff]
  rw [B_eq] at hpow ⊢
  omega

theorem secondStage_correct {tmp : List Nat} (hlen : tmp.length = 48)
    (hlb : ∀ t ∈ tmp, t < B) {k0 k1 : Nat} (hk0 : k0 < B) (hk1 : k1 < B)
    (hkb : k0 + k1 * B < 2 ^ 7 * B) {T : Nat}
    (hT : radixVal B tmp + (k0 + k1 * B) * B ^ 48 = T) :
    ∃ (lo : Nat) (out : List Nat),
      secondReduction (k0, k1) tmp = ((lo, 0), out) ∧
      bounded (finalReductions lo out) ∧
      valList (finalReductions lo out) = T % prime ∧
      (lo = 0 ∨ lo = 1) := by
  obtain ⟨hpc, hbbp, hppos⟩ := prime_facts
  have hKc : (k0 + k1 * B) * primeDiff < B * B := by
    obtain ⟨K, hK⟩ : ∃ K, k0 + k1 * B = K := ⟨_, rfl⟩
    rw [hK] at hkb ⊢
    rw [B_eq] at hkb ⊢
    simp only [primeDiff]
    omega
  obtain ⟨hm0, hm1, hmv⟩ := muln2_exact hk0 hk1 hKc
  rcases hM : muln2 (k0, k1) primeDiff with ⟨m0, m1⟩
  rw [hM] at hm0 hm1 hmv
  simp only [val2] at hmv
  simp only [] at hm0 hm1 hmv
  have hinit : m0 + m1 * B ≤ B * B - B := by
    rw [hmv]
    obtain ⟨K, hK⟩ : ∃ K, k0 + k1 * B = K := ⟨_, rfl⟩
    rw [hK] at hkb ⊢
    rw [B_eq] at hkb ⊢
    simp only [primeDiff]
    omega
  obtain ⟨new, fl, fh, heq, hlen', hnb, hfl, hfh, hfb, hval, hz⟩ :=
    anxFold_spec tmp m0 m1 [] hm0 hm1 hinit hlb
  have hne : tmp ≠ [] := by
    intro h
    rw [h] at hlen
    simp at hlen
  have hfh0 : fh = 0 := hz (Or.inl hne)
  subst hfh0
  have hSR : secondReduction (k0, k1) tmp = ((fl, 0), new) := by
    simp only [secondReduction, hM, heq, List.nil_append]
  have hlen48 : new.length = 48 := by rw [hlen', hlen]
  have hnew_lt : radixVal B new < B ^ 48 := by
    have := radixVal_lt B_pos hnb
    rw [hlen48] at this
    exact this
  have htmp_lt : radixVal B tmp < B ^ 48 := by
    have := radixVal_lt B_pos hlb
    rw [hlen] at this
    exact this
  rw [hlen] at hval
  have hU : radixVal B new + fl * B ^ 48 =
      (k0 + k1 * B) * primeDiff + radixVal B tmp := by
    rw [← hmv]
    calc radixVal B new + fl * B ^ 48 = radixVal B new + (fl + 0 * B) * B ^ 48 := by ring
      _ = m0 + m1 * B + radixVal B tmp := hval
  have hTU : T % prime = ((k0 + k1 * B) * primeDiff + radixVal B tmp) % prime := by
    have h1 : T = ((k0 + k1 * B) * primeDiff + radixVal B tmp) + prime * (k0 + k1 * B) := by
      rw [← hT, ← hpc]
      ring
    rw [h1, Nat.add_mul_mod_self_left]
  have hBB48 : B * B ≤ B ^ 48 := by omega
  have hfl1 : fl = 0 ∨ fl = 1 := by
    by_contra hcon
    push_neg at hcon
    have h2 : 2 ≤ fl := by omega
    have h3 : 2 * B ^ 48 ≤ fl * B ^ 48 := Nat.mul_le_mul_right _ h2
    omega
  refine ⟨fl, new, hSR, ?_, ?_, hfl1⟩
  · -- boundedness of the final result
    rcases hfl1 with rfl | rfl
    · simp only [finalReductions]
      have hz0 : ¬ (0 : Nat) < 0 := by omega
      rw [if_neg hz0]
      split
      · exact (fullReduce_spec ⟨hlen48, hnb⟩).1
      · exact ⟨hlen48, hnb⟩
    · simp only [finalReductions]
      have hz1 : (0 : Nat) < 1 := by omega
      rw [if_pos hz1]
      split
      · exact (fullReduce_spec (fullReduce_spec ⟨hlen48, hnb⟩).1).1
      · exact (fullReduce_spec ⟨hlen48, hnb⟩).1
  · -- the value is T mod prime
    rw [hTU]
    rcases hfl1 with rfl | rfl
    · -- no pending carry: the streamed value is radixVal B new itself
      have hUv : radixVal B new = (k0 + k1 * B) * primeDiff + radixVal B tmp := by
        have := hU
        omega
      rw [← hUv]
      simp only [finalReductions]
      have hz0 : ¬ (0 : Nat) < 0 := by omega
      rw [if_neg hz0]
      cases hov : isOverflow new with
      | false =>
        rw [if_neg (by simp [hov])]
        have hlt : radixVal B new < prime := by
          by_contra hge
          push_neg at hge
          have := (isOverflow_iff ⟨hlen48, hnb⟩).mpr hge
          rw [hov] at this
          exact Bool.false_ne_true this
        rw [Nat.mod_eq_of_lt hlt]
        rfl
      | true =>
        rw [if_pos (by simp [hov])]
        have hge : prime ≤ radixVal B new := (isOverflow_iff ⟨hlen48, hnb⟩).mp hov
        obtain ⟨hbd, hvfr⟩ := fullReduce_spec ⟨hlen48, hnb⟩
        have e1 : (valList new + primeDiff) % B ^ 48 = valList new + primeDiff - B ^ 48 := by
          have hge48 : B ^ 48 ≤ valList new + primeDiff := by
            simp only [valList]
            omega
          have hlt48 : valList new + primeDiff - B ^ 48 < B ^ 48 := by
            simp only [valList]
            omega
          rw [Nat.mod_eq_sub_mod hge48, Nat.mod_eq_of_lt hlt48]
        have e2 : radixVal B new % prime = radixVal B new - prime := by
          have h2a : radixVal B new < 2 * prime := by omega
          rw [Nat.mod_eq_sub_mod hge, Nat.mod_eq_of_lt (by omega)]
        rw [hvfr, e1, e2]
        simp only [valList]
        omega
    · -- one pending carry: one more FullReduce folds it back in
      have hUv : radixVal B new + B ^ 48 =
          (k0 + k1 * B) * primeDiff + radixVal B tmp := by
        have := hU
        omega
      have hsmall : radixVal B new < B * B := by omega
      have hlt : radixVal B new < prime := by omega
      have hov : isOverflow new = false := by
        cases hov : isOverflow new with
        | false => rfl
        | true =>
          have hh := (isOverflow_iff ⟨hlen48, hnb⟩).mp hov
          simp only [valList] at hh
          omega
      simp only [finalReductions]
      have hz1 : (0 : Nat) < 1 := by omega
      rw [if_pos hz1, if_neg (by simp [hov])]
      obtain ⟨hbd, hvfr⟩ := fullReduce_spec ⟨hlen48, hnb⟩
      have e1 : (valList new + primeDiff) % B ^ 48 = valList new + primeDiff := by
        refine Nat.mod_eq_of_lt ?_
        simp only [valList]
        omega
      have hUmod : ((k0 + k1 * B) * primeDiff + radixVal B tmp) % prime =
          radixVal B new + primeDiff := by
        have h4 : (k0 + k1 * B) * primeDiff + radixVal B tmp =
            (radixVal B new + primeDiff) + prime := by omega
        rw [h4, Nat.add_mod_right]
        exact Nat.mod_eq_of_lt (by omega)
      rw [hvfr, e1, hUmod]
      rfl

/-! ### Correctness of `uint3072.Mul` -/

theorem mulT_mod {x y : List Nat} (hx : bounded x) (hy : bounded y) :
    mulT x y % prime = valList x * valList y % prime := by
  obtain ⟨hpc, -, -⟩ := prime_facts
  have hconv := conv_identity hx.1 hy.1
  have h1 : valList x * valList y =
      mulT x y + prime * ∑ j ∈ Finset.range 47, hicol x y j * B ^ j := by
    rw [hconv, mulT, ← hpc]
    ring
  rw [h1, Nat.add_mul_mod_self_left]

theorem mulGo_correct {x y : List Nat} (hx : bounded x) (hy : bounded y) :
    bounded (mulGo x y) ∧ valList (mulGo x y) = valList x * valList y % prime ∧
      valList (mulGo x y) < prime := by
  obtain ⟨k0, k1, tmp, hP2, hlen, hlb, hk0, hk1, hkb, hTv⟩ := mulPhase2_spec hx hy
  obtain ⟨lo, out, hSR, hbd, hval, hlo⟩ := secondStage_correct hlen hlb hk0 hk1 hkb hTv
  obtain ⟨-, -, hppos⟩ := prime_facts
  have hMG : mulGo x y = finalReductions lo out := by
    simp only [mulGo, hP2, hSR]
  refine ⟨by rw [hMG]; exact hbd, ?_, ?_⟩
  · rw [hMG, hval, mulT_mod hx hy]
  · rw [hMG, hval]
    exact Nat.mod_lt _ hppos

/-! ### The symmetric columns of `Square` -/

theorem listSum_double (f : Nat → Nat) (is : List Nat) :
    (is.map fun i => 2 * f i).sum = 2 * (is.map f).sum := by
  induction is with
  | nil => simp
  | cons i is ih =>
    simp only [List.map_cons, List.sum_cons, ih]
    ring

/-- Splitting a reflection-symmetric sum into twice its first half plus an
optional middle term. -/
theorem sum_reflect_half (g : Nat → Nat) (m : Nat)
    (hg : ∀ t, t < m → g (m - 1 - t) = g t) :
    ∑ t ∈ Finset.range m, g t =
      (∑ t ∈ Finset.range (m / 2), 2 * g t) +
        (if m % 2 = 1 then g (m / 2) else 0) := by
  have hhalf : ∑ t ∈ Finset.range (m / 2), 2 * g t =
      2 * ∑ t ∈ Finset.range (m / 2), g t := by
    rw [Finset.mul_sum]
  have hsplit : (∑ t ∈ Finset.range m, g t) =
      (∑ t ∈ Finset.range (m / 2), g t) + ∑ t ∈ Finset.Ico (m / 2) m, g t := by
    rw [Finset.range_eq_Ico, ← Finset.sum_Ico_consecutive g (Nat.zero_le (m / 2))
      (Nat.div_le_self m 2), ← Finset.range_eq_Ico]
  have hrefl : (∑ t ∈ Finset.Ico (m / 2) m, g t) =
      (∑ t ∈ Finset.range (m - m / 2), g t) := by
    rw [Finset.sum_Ico_eq_sum_range]
    have h1 := Finset.sum_range_reflect (fun t => g (m / 2 + t)) (m - m / 2)
    rw [← h1]
    refine Finset.sum_congr rfl fun t ht => ?_
    have ht' : t < m - m / 2 := Finset.mem_range.mp ht
    have e1 : m / 2 + (m - m / 2 - 1 - t) = m - 1 - t := by omega
    rw [e1, hg t (by omega)]
  rw [hsplit, hrefl, hhalf]
  rcases Nat.mod_two_eq_zero_or_one m with h0 | h1
  · have hk : m - m / 2 = m / 2 := by omega
    rw [hk, h0, if_neg (by omega : ¬ (0 : Nat) = 1)]
    omega
  · have hk : m - m / 2 = m / 2 + 1 := by omega
    rw [hk, h1, Finset.sum_range_succ, if_pos rfl]
    omega

theorem sqHiCol_spec {x : List Nat} (hx : ∀ a ∈ x, a < B) {j : Nat} (hj : j < 47) :
    comps3 (sqHiCol x j) ∧ val3 (sqHiCol x j) = hicol x x j := by
  have hM : limbs - 1 - j = 47 - j := by simp only [limbs]
  -- the fold over the strict half
  have hsum : ((List.range ((limbs - 1 - j) / 2)).map
      (fun i => wval x (i + j + 1) * wval x (limbs - 1 - i))).sum ≤
        24 * ((B - 1) * (B - 1)) := by
    have h1 := listSum_prod_le (fun i => wval x (i + j + 1)) (fun i => wval x (limbs - 1 - i))
      (List.range ((limbs - 1 - j) / 2))
      (fun i _ => ⟨wval_lt hx (i + j + 1), wval_lt hx (limbs - 1 - i)⟩)
    have h2 : (List.range ((limbs - 1 - j) / 2)).length ≤ 24 := by
      simp only [List.length_range, limbs]
      omega
    exact le_trans h1 (Nat.mul_le_mul_right _ h2)
  obtain ⟨hfc, hfv⟩ := muldbladd3_fold (fun i => wval x (i + j + 1))
    (fun i => wval x (limbs - 1 - i)) (List.range ((limbs - 1 - j) / 2)) (0, 0, 0)
    ⟨B_pos, B_pos, B_pos⟩
    (fun i _ => ⟨wval_lt hx (i + j + 1), wval_lt hx (limbs - 1 - i)⟩)
    (by
      have hd := listSum_double
        (fun i => wval x (i + j + 1) * wval x (limbs - 1 - i))
        (List.range ((limbs - 1 - j) / 2))
      rw [hd]
      simp only [val3]
      rw [B_eq] at hsum ⊢
      omega)
  have hdv : ((List.range ((limbs - 1 - j) / 2)).map
      (fun i => 2 * (wval x (i + j + 1) * wval x (limbs - 1 - i)))).sum =
        2 * ((List.range ((limbs - 1 - j) / 2)).map
          (fun i => wval x (i + j + 1) * wval x (limbs - 1 - i))).sum :=
    listSum_double _ _
  -- the target column, halved
  have hcol : hicol x x j =
      (∑ t ∈ Finset.range ((limbs - 1 - j) / 2),
          2 * (wval x (j + 1 + t) * wval x (limbs - 1 - t))) +
        (if (limbs - 1 - j) % 2 = 1 then
          wval x (j + 1 + (limbs - 1 - j) / 2) *
            wval x (limbs - 1 - (limbs - 1 - j) / 2) else 0) := by
    rw [hicol]
    exact sum_reflect_half (fun t => wval x (j + 1 + t) * wval x (limbs - 1 - t))
      (limbs - 1 - j) (by
        intro t ht
        simp only [limbs] at ht ⊢
        have e1 : j + 1 + (48 - 1 - j - 1 - t) = 48 - 1 - t := by omega
        have e2 : 48 - 1 - (48 - 1 - j - 1 - t) = j + 1 + t := by omega
        rw [e1, e2]
        ring)
  -- the fold sum in Finset form, with normalized indices
  have hfin : ((List.range ((limbs - 1 - j) / 2)).map
      (fun i => 2 * (wval x (i + j + 1) * wval x (limbs - 1 - i)))).sum =
        ∑ t ∈ Finset.range ((limbs - 1 - j) / 2),
          2 * (wval x (j + 1 + t) * wval x (limbs - 1 - t)) := by
    rw [listSum_map_range]
    refine Finset.sum_congr rfl fun t _ => ?_
    have e : t + j + 1 = j + 1 + t := by omega
    rw [e]
  rw [hfin] at hfv
  -- case on the middle term
  simp only [sqHiCol]
  rcases Nat.mod_two_eq_zero_or_one (limbs - 1 - j) with hpar | hpar
  · have hcond : ¬ ((j + 1) % 2 = 1) := by
      rw [hM] at hpar
      omega
    rw [if_neg hcond]
    refine ⟨hfc, ?_⟩
    rw [hfv, hcol, if_neg (by omega)]
    simp only [val3]
    ring
  · have hcond : (j + 1) % 2 = 1 := by
      rw [hM] at hpar
      omega
    rw [if_pos hcond]
    obtain ⟨hmc, hmv⟩ := muladd3_exact' hfc
      (wval_lt hx ((limbs - 1 - j) / 2 + j + 1))
      (wval_lt hx (limbs - 1 - (limbs - 1 - j) / 2))
      (by
        rw [hfv]
        have hmid : wval x ((limbs - 1 - j) / 2 + j + 1) *
            wval x (limbs - 1 - (limbs - 1 - j) / 2) ≤ (B - 1) * (B - 1) :=
          Nat.mul_le_mul (by have := wval_lt hx ((limbs - 1 - j) / 2 + j + 1); omega)
            (by have := wval_lt hx (limbs - 1 - (limbs - 1 - j) / 2); omega)
        have hs2 : (∑ t ∈ Finset.range ((limbs - 1 - j) / 2),
            2 * (wval x (j + 1 + t) * wval x (limbs - 1 - t))) ≤
              48 * ((B - 1) * (B - 1)) := by
          rw [← hfin, hdv]
          rw [B_eq] at hsum ⊢
          omega
        simp only [val3]
        rw [B_eq] at hmid hs2 ⊢
        omega)
    refine ⟨hmc, ?_⟩
    rw [hmv, hfv, hcol, if_pos hpar]
    have e : (limbs - 1 - j) / 2 + j + 1 = j + 1 + (limbs - 1 - j) / 2 := by omega
    rw [e]
    simp only [val3]
    omega

theorem sqLowColAdd_spec {x : List Nat} (hx : ∀ a ∈ x, a < B) {j : Nat}
    {s : Nat × Nat × Nat} (hs : comps3 s)
    (htot : val3 s + lowcol x x j < B * (B * B)) :
    comps3 (sqLowColAdd x j s) ∧ val3 (sqLowColAdd x j s) = val3 s + lowcol x x j := by
  have hcol : lowcol x x j =
      (∑ t ∈ Finset.range ((j + 1) / 2), 2 * (wval x t * wval x (j - t))) +
        (if (j + 1) % 2 = 1 then wval x ((j + 1) / 2) * wval x (j - (j + 1) / 2)
          else 0) := by
    rw [lowcol]
    exact sum_reflect_half (fun t => wval x t * wval x (j - t)) (j + 1) (by
      intro t ht
      show wval x (j + 1 - 1 - t) * wval x (j - (j + 1 - 1 - t)) =
        wval x t * wval x (j - t)
      have e1 : j + 1 - 1 - t = j - t := by omega
      rw [e1]
      have e2 : j - (j - t) = t := by omega
      rw [e2]
      ring)
  have hfin : ((List.range ((j + 1) / 2)).map
      (fun i => 2 * (wval x i * wval x (j - i)))).sum =
        ∑ t ∈ Finset.range ((j + 1) / 2), 2 * (wval x t * wval x (j - t)) := by
    rw [listSum_map_range]
  have hsum_le : (∑ t ∈ Finset.range ((j + 1) / 2), 2 * (wval x t * wval x (j - t))) ≤
      lowcol x x j := by
    rw [hcol]
    omega
  have hlow_le' : lowcol x x j ≤ 48 * ((B - 1) * (B - 1)) ∨ 47 < j := by
    by_cases hj : j ≤ 47
    · exact Or.inl (lowcol_le hx hx hj)
    · exact Or.inr (by omega)
  obtain ⟨hfc, hfv⟩ := muldbladd3_fold (fun i => wval x i) (fun i => wval x (j - i))
    (List.range ((j + 1) / 2)) s hs
    (fun i _ => ⟨wval_lt hx i, wval_lt hx (j - i)⟩)
    (by
      rw [hfin]
      omega)
  rw [hfin] at hfv
  simp only [sqLowColAdd]
  rcases Nat.mod_two_eq_zero_or_one (j + 1) with hpar | hpar
  · rw [if_neg (by omega)]
    refine ⟨hfc, ?_⟩
    rw [hfv, hcol, if_neg (by omega)]
    omega
  · rw [if_pos hpar]
    obtain ⟨hmc, hmv⟩ := muladd3_exact' hfc (wval_lt hx ((j + 1) / 2))
      (wval_lt hx (j - (j + 1) / 2))
      (by
        have hfmid : (∑ t ∈ Finset.range ((j + 1) / 2),
              2 * (wval x t * wval x (j - t))) +
            wval x ((j + 1) / 2) * wval x (j - (j + 1) / 2) = lowcol x x j := by
          rw [hcol, if_pos hpar]
        rw [hfv]
        omega)
    refine ⟨hmc, ?_⟩
    rw [hmv, hfv, hcol, if_pos hpar]
    omega

/-! ### The outer loop of `Square` and its correctness -/

theorem sqStep_ok {x : List Nat} (hx : bounded x) :
    stepOK (fun j => lowcol x x j + primeDiff * hicol x x j) (sqStep x) := by
  obtain ⟨hxl, hxb⟩ := hx
  intro s j hj hcomp hz hval
  obtain ⟨⟨k0, k1, k2⟩, tmp⟩ := s
  have hj' : j < 47 := by simp only [limbs] at hj; omega
  have hk2 : k2 = 0 := hz
  subst hk2
  obtain ⟨hhc, hhv⟩ := sqHiCol_spec hxb hj'
  rcases hHC : sqHiCol x j with ⟨d0, d1, d2⟩
  rw [hHC] at hhc hhv
  simp only [val3] at hhv
  have hhi_le : hicol x x j ≤ 47 * ((B - 1) * (B - 1)) := hicol_le hxb hxb j
  have hlo_le : lowcol x x j ≤ 48 * ((B - 1) * (B - 1)) := lowcol_le hxb hxb (by omega)
  have hd2 : d2 ≤ 2 ^ 40 := by
    have h1 : d2 * (B * B) ≤ hicol x x j := by omega
    rw [B_eq] at h1
    rw [B_eq] at hhi_le
    omega
  obtain ⟨hmc, hmv⟩ := mulnadd3_exact (n := primeDiff) hcomp.1 hcomp.2.1
    hhc.1 hhc.2.1 hd2 le_rfl
  rw [hhv] at hmv
  have hval' : val3 (k0, k1, 0) = k0 + k1 * B := by
    simp only [val3]; ring
  rw [hval'] at hval
  have htot : val3 (mulnadd3 (k0, k1, 0) (d0, d1, d2) primeDiff) + lowcol x x j <
      B * (B * B) := by
    rw [hmv]
    rw [B_eq] at hval hhi_le hlo_le ⊢
    simp only [primeDiff]
    omega
  obtain ⟨hfc, hfv⟩ := sqLowColAdd_spec hxb hmc htot
  refine ⟨sqLowColAdd x j (mulnadd3 (k0, k1, 0) (sqHiCol x j) primeDiff), ?_, ?_, ?_⟩
  · rfl
  · rw [hHC]; exact hfc
  · rw [hHC, hfv, hmv, hval']
    simp only [primeDiff]
    ring

theorem sqPhase2_spec {x : List Nat} (hx : bounded x) :
    ∃ (k0 k1 : Nat) (tmp : List Nat),
      sqPhase2 x = ((k0, k1, 0), tmp) ∧
      tmp.length = 48 ∧ (∀ t ∈ tmp, t < B) ∧
      k0 < B ∧ k1 < B ∧ k0 + k1 * B < 2 ^ 7 * B ∧
      radixVal B tmp + (k0 + k1 * B) * B ^ 48 = mulT x x := by
  have hxb := hx.2
  have hS : ∀ j, j < 47 → lowcol x x j + primeDiff * hicol x x j ≤ 2 ^ 26 * (B * B) := by
    intro j hj
    have h1 := lowcol_le hxb hxb (by omega : j ≤ 47)
    have h2 := hicol_le hxb hxb j
    rw [B_eq] at h1 h2 ⊢
    simp only [primeDiff]
    omega
  have hInv := phase1_inv (sqStep_ok hx) hS 47 le_rfl
  have hP1 : sqPhase1 x = (List.range 47).foldl (sqStep x) ((0, 0, 0), []) := rfl
  rw [← hP1] at hInv
  rcases hF : sqPhase1 x with ⟨⟨f0, f1, f2⟩, tmp47⟩
  rw [hF] at hInv
  obtain ⟨hc, hz, hv, hlen, hlimb, hsum⟩ := hInv
  have hf2 : f2 = 0 := hz
  subst hf2
  simp only [] at hc hv hlen hlimb hsum
  -- the top limb: the symmetric column 47
  have hcol47 : lowcol x x 47 =
      (∑ t ∈ Finset.range 24, 2 * (wval x t * wval x (47 - t))) + 0 := by
    have h1 := sum_reflect_half (fun t => wval x t * wval x (47 - t)) 48 (by
      intro t ht
      show wval x (48 - 1 - t) * wval x (47 - (48 - 1 - t)) =
        wval x t * wval x (47 - t)
      have e1 : 48 - 1 - t = 47 - t := by omega
      rw [e1]
      have e2 : 47 - (47 - t) = t := by omega
      rw [e2]
      ring)
    have e48 : (47 : Nat) + 1 = 48 := rfl
    have h242 : (48 / 2 : Nat) = 24 := rfl
    have hparity : ¬ ((48 : Nat) % 2 = 1) := by omega
    rw [lowcol, e48, h1, h242, if_neg hparity]
  have hsum24 : ((List.range (limbs / 2)).map
      (fun i => 2 * (wval x i * wval x (limbs - 1 - i)))).sum = lowcol x x 47 := by
    rw [listSum_map_range]
    have h24 : (limbs / 2 : Nat) = 24 := rfl
    rw [h24]
    have hterm : ∀ i ∈ Finset.range 24,
        2 * (wval x i * wval x (limbs - 1 - i)) = 2 * (wval x i * wval x (47 - i)) := by
      intro i _
      have e : limbs - 1 - i = 47 - i := by simp only [limbs]
      rw [e]
    rw [Finset.sum_congr rfl hterm, hcol47]
    omega
  have hlo := lowcol_le hxb hxb (le_refl 47)
  obtain ⟨hrc, hrv⟩ := muldbladd3_fold (fun i => wval x i) (fun i => wval x (limbs - 1 - i))
    (List.range (limbs / 2)) (f0, f1, 0) hc
    (fun i _ => ⟨wval_lt hxb i, wval_lt hxb (limbs - 1 - i)⟩)
    (by
      rw [hsum24]
      simp only [val3] at hv ⊢
      rw [B_eq] at hv hlo ⊢
      omega)
  rcases hR : (List.range (limbs / 2)).foldl
      (fun s i => muldbladd3 s (wval x i) (wval x (limbs - 1 - i))) (f0, f1, 0) with ⟨a, bb, cc⟩
  rw [hR] at hrc hrv
  rw [hsum24] at hrv
  simp only [val3] at hrv hv
  refine ⟨bb, cc, tmp47 ++ [a], ?_, ?_, ?_, hrc.2.1, hrc.2.2, ?_, ?_⟩
  · simp only [sqPhase2, hF, hR]
  · simp only [List.length_append, List.length_cons, List.length_nil, hlen]
  · intro t ht
    rcases List.mem_append.mp ht with h | h
    · exact hlimb t h
    · have : t = a := by simpa using h
      rw [this]; exact hrc.1
  · rw [B_eq] at hrv hv hlo ⊢
    omega
  · rw [radixVal_append, hlen]
    have h1 : radixVal B [a] = a := by simp [radixVal]
    have hv3 : val3 (f0, f1, 0) = f0 + f1 * B + 0 * (B * B) := rfl
    rw [h1, ← mulT_sum, ← hsum]
    calc radixVal B tmp47 + B ^ 47 * a + (bb + cc * B) * B ^ 48
        = radixVal B tmp47 + (a + bb * B + cc * (B * B)) * B ^ 47 := by ring
      _ = radixVal B tmp47 +
            (f0 + f1 * B + 0 * (B * B) + lowcol x x 47) * B ^ 47 := by rw [hrv]
      _ = radixVal B tmp47 + val3 (f0, f1, 0) * B ^ 47 + lowcol x x 47 * B ^ 47 := by
          rw [hv3]
          ring

theorem squareGo_correct {x : List Nat} (hx : bounded x) :
    bounded (squareGo x) ∧ valList (squareGo x) = valList x * valList x % prime ∧
      valList (squareGo x) < prime := by
  obtain ⟨k0, k1, tmp, hP2, hlen, hlb, hk0, hk1, hkb, hTv⟩ := sqPhase2_spec hx
  obtain ⟨lo, out, hSR, hbd, hval, hlo⟩ := secondStage_correct hlen hlb hk0 hk1 hkb hTv
  obtain ⟨-, -, hppos⟩ := prime_facts
  have hMG : squareGo x = finalReductions lo out := by
    simp only [squareGo, hP2, hSR]
  refine ⟨by rw [hMG]; exact hbd, ?_, ?_⟩
  · rw [hMG, hval, mulT_mod hx hx]
  · rw [hMG, hval]
    exact Nat.mod_lt _ hppos

/-! ### The internal assertions of `Mul` and `Square` -/

theorem foldl_carry_zero {f : (Nat × Nat × Nat) × List Nat → Nat → (Nat × Nat × Nat) × List Nat}
    (hf : ∀ s j, (f s j).1.2.2 = 0) (l : List Nat) :
    ∀ s : (Nat × Nat × Nat) × List Nat, s.1.2.2 = 0 → (l.foldl f s).1.2.2 = 0 := by
  induction l with
  | nil => intro s hs; exact hs
  | cons a t ih => intro s _; exact ih _ (hf s a)

/-- After the first outer loop of `Mul` the `carryHighest` word is zero
(`extract3` clears it on every iteration). -/
theorem mulPhase1_carry (x y : List Nat) : (mulPhase1 x y).1.2.2 = 0 :=
  foldl_carry_zero (fun _ _ => rfl) _ _ rfl

/-- After the first outer loop of `Square` the `carry` word is zero. -/
theorem sqPhase1_carry (x : List Nat) : (sqPhase1 x).1.2.2 = 0 :=
  foldl_carry_zero (fun _ _ => rfl) _ _ rfl

/-! ### The limb-wise reading of the overflow test -/

/-- `IsOverflow` in terms of the limbs themselves: limb 0 exceeds
`LIMB_MAX - PRIME_DIFF` and every higher limb is `LIMB_MAX`. -/
theorem isOverflow_limbs (x : List Nat) :
    isOverflow x = true ↔
      ((B - 1) - primeDiff < wval x 0 ∧ ∀ i, 1 ≤ i → i < limbs → wval x i = B - 1) := by
  simp only [isOverflow]
  rcases le_or_lt (wval x 0) ((B - 1) - primeDiff) with hle | hgt
  · rw [if_pos hle]
    simp only [Bool.false_eq_true, false_iff, not_and]
    intro hgt'
    omega
  · rw [if_neg (not_le.mpr hgt)]
    rw [List.all_eq_true]
    constructor
    · intro h
      refine ⟨hgt, fun i h1 hi => ?_⟩
      have hmem : i ∈ List.range' 1 (limbs - 1) := by
        rw [List.mem_range'_1]
        simp only [limbs] at hi ⊢
        omega
      simpa using h i hmem
    · rintro ⟨-, hall⟩ i hi
      rw [List.mem_range'_1] at hi
      have := hall i hi.1 (by simp only [limbs] at hi ⊢; omega)
      simp [this]

/-! ### Injectivity of the limb representation -/

theorem radixVal_inj {b : Nat} {x y : List Nat} (hx : ∀ a ∈ x, a < b) (hy : ∀ a ∈ y, a < b)
    (hlen : x.length = y.length) (hval : radixVal b x = radixVal b y) : x = y := by
  induction x generalizing y with
  | nil =>
    cases y with
    | nil => rfl
    | cons c t => simp at hlen
  | cons a s ih =>
    cases y with
    | nil => simp at hlen
    | cons c t =>
      have ha : a < b := hx a (by simp)
      have hc : c < b := hy c (by simp)
      have hb : 0 < b := by omega
      simp only [radixVal] at hval
      have h1 : (a + b * radixVal b s) % b = a := by
        rw [Nat.add_mul_mod_self_left, Nat.mod_eq_of_lt ha]
      have h2 : (c + b * radixVal b t) % b = c := by
        rw [Nat.add_mul_mod_self_left, Nat.mod_eq_of_lt hc]
      have hac : a = c := by rw [← h1, ← h2, hval]
      have hst : radixVal b s = radixVal b t :=
        Nat.eq_of_mul_eq_mul_left hb (by omega)
      have htail := ih (fun u hu => hx u (by simp [hu])) (fun u hu => hy u (by simp [hu]))
        (by simpa using hlen) hst
      rw [hac, htail]

/-- Two well-formed `uint3072`s with the same value are limb-wise equal. -/
theorem valList_inj {x y : List Nat} (hx : bounded x) (hy : bounded y)
    (h : valList x = valList y) : x = y :=
  radixVal_inj hx.2 hy.2 (hx.1.trans hy.1.symm) h

/-! ### The right operand of `Divide` -/

/-- The final state of `rhs` after `Divide` is its conditional `FullReduce`
(read off the definition). -/
theorem divide_snd (l r : List Nat) :
    (divide l r).2 = if isOverflow r then fullReduce r else r := rfl

theorem divide_rhs_of_overflow {l r : List Nat} (hr : bounded r)
    (hov : isOverflow r = true) :
    (divide l r).2 ≠ r ∧ valList (divide l r).2 = valList r - prime := by
  obtain ⟨hpc, -, hppos⟩ := prime_facts
  have hge : prime ≤ valList r := (isOverflow_iff hr).mp hov
  have hlt := valList_lt hr
  obtain ⟨-, hfv⟩ := fullReduce_spec hr
  have hsnd : (divide l r).2 = fullReduce r := by
    rw [divide_snd, if_pos hov]
  have hval : valList (fullReduce r) = valList r - prime := by
    rw [hfv]
    have hsplit : valList r + primeDiff = (valList r - prime) + B ^ 48 := by omega
    rw [hsplit, Nat.add_mod_right]
    exact Nat.mod_eq_of_lt (by omega)
  refine ⟨?_, by rw [hsnd]; exact hval⟩
  intro hcontra
  rw [hsnd] at hcontra
  have := congrArg valList hcontra
  rw [hval] at this
  omega

/-! ### Claim theorems -/

/-- C1: For all well-formed operands (48 limbs, each below `2^64`, hence values
in `[0, 2^3072)`), `uint3072.Mul` stores `lhs * rhs mod p` in `lhs`, a value in
the canonical range `[0, p)`. -/
theorem C1_mul_correct {x y : List Nat} (hx : bounded x) (hy : bounded y) :
    valList (mulGo x y) = valList x * valList y % prime ∧ valList (mulGo x y) < prime :=
  (mulGo_correct hx hy).2

theorem C1_mul_correct_witness :
    bounded one3072 ∧
      (valList (mulGo one3072 one3072) = valList one3072 * valList one3072 % prime ∧
        valList (mulGo one3072 one3072) < prime) :=
  ⟨by decide, C1_mul_correct (by decide) (by decide)⟩

/-- C4: For all well-formed operands the internal assertions of `Mul` and
`Square` hold: the `carryHighest` word is zero when the top limb is assembled
(first two conjuncts), and after the second reduction the high carry word is
zero and the low carry word is 0 or 1 (for `Mul` and for `Square`), so the
panic branch of `assert` is unreachable. -/
theorem C4_assertions_hold {x y : List Nat} (hx : bounded x) (hy : bounded y) :
    (mulPhase1 x y).1.2.2 = 0 ∧ (sqPhase1 x).1.2.2 = 0 ∧
    (∃ k0 k1 tmp lo out, mulPhase2 x y = ((k0, k1, 0), tmp) ∧
      secondReduction (k0, k1) tmp = ((lo, 0), out) ∧ (lo = 0 ∨ lo = 1)) ∧
    (∃ k0 k1 tmp lo out, sqPhase2 x = ((k0, k1, 0), tmp) ∧
      secondReduction (k0, k1) tmp = ((lo, 0), out) ∧ (lo = 0 ∨ lo = 1)) := by
  refine ⟨mulPhase1_carry x y, sqPhase1_carry x, ?_, ?_⟩
  · obtain ⟨k0, k1, tmp, hP2, hlen, hlb, hk0, hk1, hkb, hTv⟩ := mulPhase2_spec hx hy
    obtain ⟨lo, out, hSR, -, -, hlo⟩ := secondStage_correct hlen hlb hk0 hk1 hkb hTv
    exact ⟨k0, k1, tmp, lo, out, hP2, hSR, hlo⟩
  · obtain ⟨k0, k1, tmp, hP2, hlen, hlb, hk0, hk1, hkb, hTv⟩ := sqPhase2_spec hx
    obtain ⟨lo, out, hSR, -, -, hlo⟩ := secondStage_correct hlen hlb hk0 hk1 hkb hTv
    exact ⟨k0, k1, tmp, lo, out, hP2, hSR, hlo⟩

theorem C4_assertions_hold_witness :
    bounded one3072 ∧
      ((mulPhase1 one3072 one3072).1.2.2 = 0 ∧ (sqPhase1 one3072).1.2.2 = 0 ∧
      (∃ k0 k1 tmp lo out, mulPhase2 one3072 one3072 = ((k0, k1, 0), tmp) ∧
        secondReduction (k0, k1) tmp = ((lo, 0), out) ∧ (lo = 0 ∨ lo = 1)) ∧
      (∃ k0 k1 tmp lo out, sqPhase2 one3072 = ((k0, k1, 0), tmp) ∧
        secondReduction (k0, k1) tmp = ((lo, 0), out) ∧ (lo = 0 ∨ lo = 1))) :=
  ⟨by decide, C4_assertions_hold (by decide) (by decide)⟩

/-- C5: For every well-formed `x`, `IsOverflow x` is true iff `x ≥ p`, and
equivalently iff limb 0 is strictly above `LIMB_MAX - PRIME_DIFF` and every
higher limb equals `LIMB_MAX`. -/
theorem C5_isOverflow_characterization {x : List Nat} (hx : bounded x) :
    (isOverflow x = true ↔ prime ≤ valList x) ∧
    (isOverflow x = true ↔
      ((B - 1) - primeDiff < wval x 0 ∧ ∀ i, 1 ≤ i → i < limbs → wval x i = B - 1)) :=
  ⟨isOverflow_iff hx, isOverflow_limbs x⟩

theorem C5_isOverflow_characterization_witness :
    bounded pLimbs ∧
      ((isOverflow pLimbs = true ↔ prime ≤ valList pLimbs) ∧
      (isOverflow pLimbs = true ↔
        ((B - 1) - primeDiff < wval pLimbs 0 ∧
          ∀ i, 1 ≤ i → i < limbs → wval pLimbs i = B - 1))) :=
  ⟨by decide, C5_isOverflow_characterization (by decide)⟩

/-- C6: For every well-formed `x` with value in `[p, 2^3072)`, `FullReduce`
replaces `x` by `x - p`, a value in `[0, PRIME_DIFF)`, computed as
`x + PRIME_DIFF mod 2^3072` with the top carry discarded. -/
theorem C6_fullReduce_subtracts {x : List Nat} (hx : bounded x) (hp : prime ≤ valList x) :
    valList (fullReduce x) = valList x - prime ∧ valList x - prime < primeDiff ∧
    valList (fullReduce x) = (valList x + primeDiff) % B ^ 48 := by
  obtain ⟨-, hv⟩ := fullReduce_spec hx
  obtain ⟨hpc, -, hppos⟩ := prime_facts
  have hxlt := valList_lt hx
  refine ⟨?_, by omega, hv⟩
  rw [hv]
  have hsplit : valList x + primeDiff = (valList x - prime) + B ^ 48 := by omega
  rw [hsplit, Nat.add_mod_right]
  exact Nat.mod_eq_of_lt (by omega)

theorem C6_fullReduce_subtracts_witness :
    bounded pLimbs ∧ prime ≤ valList pLimbs ∧
      (valList (fullReduce pLimbs) = valList pLimbs - prime ∧
        valList pLimbs - prime < primeDiff ∧
        valList (fullReduce pLimbs) = (valList pLimbs + primeDiff) % B ^ 48) :=
  ⟨by decide, by decide, C6_fullReduce_subtracts (by decide) (by decide)⟩

/-- C8: For every well-formed `x`, the aliased call `x.Mul(&x)` (whose
by-value model is faithful because `Mul` writes to the scratch `tmp` before
touching `lhs`) leaves exactly the limbs `Square` computes: the canonical
representative of `x^2 mod p`. -/
theorem C8_mul_self_eq_square {x : List Nat} (hx : bounded x) :
    mulGo x x = squareGo x ∧
    valList (mulGo x x) = valList x ^ 2 % prime ∧ valList (mulGo x x) < prime := by
  obtain ⟨hmb, hmv, hml⟩ := mulGo_correct hx hx
  obtain ⟨hsb, hsv, -⟩ := squareGo_correct hx
  refine ⟨valList_inj hmb hsb (hmv.trans hsv.symm), ?_, hml⟩
  rw [hmv, pow_two]

theorem C8_mul_self_eq_square_witness :
    bounded one3072 ∧
      (mulGo one3072 one3072 = squareGo one3072 ∧
        valList (mulGo one3072 one3072) = valList one3072 ^ 2 % prime ∧
        valList (mulGo one3072 one3072) < prime) :=
  ⟨by decide, C8_mul_self_eq_square (by decide)⟩

/-- C9 (corrected): `Divide` does NOT always leave `rhs` unchanged.  The Go
source `FullReduce`s an overflowing `rhs` in place, so: `rhs` is unchanged
iff it is not overflowing, and an overflowing `rhs` is canonicalized in place
to `rhs - p`.  The original claim fails at `rhs = p` (see the counterexample
theorem). -/
theorem C9_divide_rhs_frame {l r : List Nat} (hr : bounded r) :
    ((divide l r).2 = r ↔ isOverflow r = false) ∧
    (isOverflow r = true → valList (divide l r).2 = valList r - prime) := by
  by_cases hov : isOverflow r = true
  · obtain ⟨hne, hval⟩ := divide_rhs_of_overflow (l := l) hr hov
    refine ⟨⟨fun h => absurd h hne, fun h => ?_⟩, fun _ => hval⟩
    rw [hov] at h
    cases h
  · have hov' : isOverflow r = false := Bool.eq_false_iff.mpr hov
    refine ⟨⟨fun _ => hov', fun _ => ?_⟩, fun htrue => absurd htrue hov⟩
    rw [divide_snd, if_neg hov]

theorem C9_divide_rhs_frame_witness :
    bounded one3072 ∧
      (((divide one3072 one3072).2 = one3072 ↔ isOverflow one3072 = false) ∧
      (isOverflow one3072 = true →
        valList (divide one3072 one3072).2 = valList one3072 - prime)) :=
  ⟨by decide, C9_divide_rhs_frame (by decide)⟩

/-- C9, counterexample to the original statement: for `lhs = 1` and
`rhs = p` (a value in `[0, 2^3072)`), the limbs of `rhs` change under
`Divide` (the conditional `FullReduce` rewrites them in place to `rhs - p = 0`). -/
theorem C9_divide_mutates_rhs : (divide one3072 pLimbs).2 ≠ pLimbs := by decide

/-! ### Bytes and words: the serialization layer -/

theorem getD_lt {b : Nat} (hb : 0 < b) {x : List Nat} (hx : ∀ a ∈ x, a < b) (i : Nat) :
    x.getD i 0 < b := by
  induction x generalizing i with
  | nil => simpa using hb
  | cons a t ih =>
    cases i with
    | zero => exact hx a (by simp)
    | succ k => simpa using ih (fun c hc => hx c (by simp [hc])) k

theorem sum_range_add_split (f : Nat → Nat) (m n : Nat) :
    ∑ i ∈ Finset.range (m + n), f i =
      ∑ i ∈ Finset.range m, f i + ∑ i ∈ Finset.range n, f (m + i) := by
  induction n with
  | zero => simp
  | succ n ih =>
    rw [← Nat.add_assoc, Finset.sum_range_succ, ih, Finset.sum_range_succ]
    omega

/-- Regrouping a sum over `range (m * n)` into `m` blocks of `n`. -/
theorem sum_range_mul_group (f : Nat → Nat) (m n : Nat) :
    ∑ j ∈ Finset.range (m * n), f j =
      ∑ i ∈ Finset.range m, ∑ k ∈ Finset.range n, f (n * i + k) := by
  induction m with
  | zero => simp
  | succ m ih =>
    have hmn : (m + 1) * n = m * n + n := by ring
    rw [hmn, sum_range_add_split, ih, Finset.sum_range_succ]
    have hlast : ∀ k ∈ Finset.range n, f (m * n + k) = f (n * m + k) := fun k _ => by
      rw [Nat.mul_comm]
    rw [Finset.sum_congr rfl hlast]

theorem leUint64_as_sum (s : List Nat) (off : Nat) :
    leUint64 s off = ∑ k ∈ Finset.range 8, s.getD (off + k) 0 * 256 ^ k := by
  have h : List.range 8 = [0, 1, 2, 3, 4, 5, 6, 7] := rfl
  simp only [leUint64, h, List.foldr_cons, List.foldr_nil]
  simp only [Finset.sum_range_succ, Finset.sum_range_zero]
  ring

theorem leUint64_lt {s : List Nat} (hsb : ∀ a ∈ s, a < 256) (off : Nat) :
    leUint64 s off < B := by
  rw [leUint64_as_sum]
  have hterm : ∀ k ∈ Finset.range 8, s.getD (off + k) 0 * 256 ^ k ≤ 255 * 256 ^ k := by
    intro k _
    have h255 : s.getD (off + k) 0 ≤ 255 := by
      have := getD_lt (b := 256) (by norm_num) hsb (off + k)
      omega
    exact Nat.mul_le_mul_right _ h255
  calc ∑ k ∈ Finset.range 8, s.getD (off + k) 0 * 256 ^ k
      ≤ ∑ k ∈ Finset.range 8, 255 * 256 ^ k := Finset.sum_le_sum hterm
    _ < B := by
        rw [B_eq]
        norm_num [Finset.sum_range_succ]

/-- The 8 little-endian bytes of a 64-bit word recover the word. -/
theorem word_bytes_val {v : Nat} (hv : v < B) :
    radixVal 256 ((List.range 8).map fun k => v / 256 ^ k % 256) = v := by
  have h : List.range 8 = [0, 1, 2, 3, 4, 5, 6, 7] := rfl
  rw [h]
  simp only [List.map_cons, List.map_nil, radixVal]
  have e0 : (256 : Nat) ^ 0 = 1 := by norm_num
  have e1 : (256 : Nat) ^ 1 = 256 := by norm_num
  have e2 : (256 : Nat) ^ 2 = 65536 := by norm_num
  have e3 : (256 : Nat) ^ 3 = 16777216 := by norm_num
  have e4 : (256 : Nat) ^ 4 = 4294967296 := by norm_num
  have e5 : (256 : Nat) ^ 5 = 1099511627776 := by norm_num
  have e6 : (256 : Nat) ^ 6 = 281474976710656 := by norm_num
  have e7 : (256 : Nat) ^ 7 = 72057594037927936 := by norm_num
  rw [e0, e1, e2, e3, e4, e5, e6, e7, B_eq] at *
  omega

theorem wordsToBytes_cons (v : Nat) (t : List Nat) :
    wordsToBytes (v :: t) =
      ((List.range 8).map fun k => v / 256 ^ k % 256) ++ wordsToBytes t := by
  simp [wordsToBytes]

theorem wordsToBytes_length (w : List Nat) : (wordsToBytes w).length = 8 * w.length := by
  induction w with
  | nil => rfl
  | cons v t ih =>
    rw [wordsToBytes_cons]
    simp only [List.length_append, List.length_map, List.length_range, ih, List.length_cons]
    ring

theorem wordsToBytes_lt (w : List Nat) : ∀ a ∈ wordsToBytes w, a < 256 := by
  intro a ha
  simp only [wordsToBytes, List.mem_flatMap, List.mem_map] at ha
  obtain ⟨v, -, k, -, rfl⟩ := ha
  exact Nat.mod_lt _ (by norm_num)

/-- Serializing bounded words is value-preserving. -/
theorem byteVal_wordsToBytes {w : List Nat} (hw : ∀ a ∈ w, a < B) :
    byteVal (wordsToBytes w) = valList w := by
  induction w with
  | nil => rfl
  | cons v t ih =>
    have hv : v < B := hw v (by simp)
    simp only [byteVal] at ih ⊢
    rw [wordsToBytes_cons, radixVal_append]
    have hlen8 : ((List.range 8).map fun k => v / 256 ^ k % 256).length = 8 := by simp
    rw [hlen8, word_bytes_val hv, ih (fun a ha => hw a (by simp [ha]))]
    simp only [valList, radixVal]
    have hB : (256 : Nat) ^ 8 = B := by norm_num [B]
    rw [hB]

theorem bytesToWordsLE_bounded {s : List Nat} (hsb : ∀ a ∈ s, a < 256) :
    bounded (bytesToWordsLE s) := by
  refine ⟨by simp [bytesToWordsLE], ?_⟩
  intro a ha
  simp only [bytesToWordsLE, List.mem_map] at ha
  obtain ⟨i, -, rfl⟩ := ha
  exact leUint64_lt hsb _

/-- Parsing 384 bytes is value-preserving. -/
theorem valList_bytesToWordsLE {s : List Nat} (hs : s.length = 384) :
    valList (bytesToWordsLE s) = byteVal s := by
  have hlen : (bytesToWordsLE s).length = 48 := by
    simp [bytesToWordsLE, limbs]
  rw [valList, radixVal_as_sum, hlen]
  have hget : ∀ i ∈ Finset.range 48, (bytesToWordsLE s).getD i 0 * B ^ i
      = ∑ k ∈ Finset.range 8, s.getD (8 * i + k) 0 * 256 ^ (8 * i + k) := by
    intro i hi
    rw [Finset.mem_range] at hi
    have h1 : (bytesToWordsLE s).getD i 0 = leUint64 s (8 * i) := by
      rw [List.getD_eq_getElem _ _ (by rw [hlen]; exact hi)]
      simp [bytesToWordsLE, limbs]
    rw [h1, leUint64_as_sum, Finset.sum_mul]
    refine Finset.sum_congr rfl fun k _ => ?_
    have hB : B ^ i = 256 ^ (8 * i) := by
      rw [show (B : Nat) = 256 ^ 8 from by norm_num [B], ← pow_mul]
    rw [hB, mul_assoc, ← pow_add, Nat.add_comm k (8 * i)]
  rw [Finset.sum_congr rfl hget]
  rw [byteVal, radixVal_as_sum, hs]
  have h := sum_range_mul_group (fun j => s.getD j 0 * 256 ^ j) 48 8
  simp only [] at h
  rw [show (48 * 8 : Nat) = 384 from rfl] at h
  exact h.symm

/-! ### `DeserializeMuHash` and the `Serialize` roundtrip -/

theorem deserialize_none_iff {s : List Nat} (hs : s.length = 384)
    (hsb : ∀ a ∈ s, a < 256) :
    deserializeMu s = none ↔ prime ≤ byteVal s := by
  have hb := bytesToWordsLE_bounded hsb
  have hio := isOverflow_iff hb
  rw [valList_bytesToWordsLE hs] at hio
  show (if isOverflow (bytesToWordsLE s) then (none : Option MuHashState)
      else some ⟨bytesToWordsLE s, one3072⟩) = none ↔ prime ≤ byteVal s
  by_cases hov : isOverflow (bytesToWordsLE s) = true
  · rw [if_pos hov]
    simp only [true_iff]
    exact hio.mp hov
  · rw [if_neg hov]
    exact ⟨fun h => Option.noConfusion h, fun hge => absurd (hio.mpr hge) hov⟩

theorem deserialize_some {s : List Nat} {m : MuHashState} (hs : s.length = 384)
    (hm : deserializeMu s = some m) :
    valList m.numerator = byteVal s ∧ m.denominator = one3072 := by
  have hd : deserializeMu s = if isOverflow (bytesToWordsLE s) then none
      else some ⟨bytesToWordsLE s, one3072⟩ := rfl
  rw [hd] at hm
  by_cases hov : isOverflow (bytesToWordsLE s) = true
  · rw [if_pos hov] at hm
    cases hm
  · rw [if_neg hov] at hm
    have hmm := Option.some.inj hm
    rw [← hmm]
    exact ⟨valList_bytesToWordsLE hs, rfl⟩

theorem natToLimbs_bounded (v : Nat) : bounded (natToLimbs v) := by
  refine ⟨by simp [natToLimbs], ?_⟩
  intro a ha
  simp only [natToLimbs, List.mem_map] at ha
  obtain ⟨i, -, rfl⟩ := ha
  exact Nat.mod_lt _ B_pos

/-- The left operand after `Divide` is well formed and canonical (`< p`):
`Mul` already returns a canonical value, so the trailing conditional
`FullReduce` never fires. -/
theorem divide_fst_correct {l r : List Nat} (hl : bounded l) :
    bounded (divide l r).1 ∧ valList (divide l r).1 < prime := by
  have hl1b : bounded (if isOverflow l then fullReduce l else l) := by
    by_cases h : isOverflow l = true
    · rw [if_pos h]
      exact (fullReduce_spec hl).1
    · rw [if_neg h]
      exact hl
  have hinvb : bounded (natToLimbs (modInverse
      (valList (if isOverflow r then fullReduce r else r)) prime)) :=
    natToLimbs_bounded _
  obtain ⟨hb2, -, hlt2⟩ := mulGo_correct hl1b hinvb
  have hno : isOverflow (mulGo (if isOverflow l then fullReduce l else l)
      (natToLimbs (modInverse (valList (if isOverflow r then fullReduce r else r)) prime)))
      = false := by
    by_cases h : isOverflow (mulGo (if isOverflow l then fullReduce l else l)
        (natToLimbs (modInverse (valList (if isOverflow r then fullReduce r else r)) prime)))
        = true
    · exact absurd ((isOverflow_iff hb2).mp h) (by omega)
    · exact Bool.eq_false_iff.mpr h
  have hfst : (divide l r).1 = mulGo (if isOverflow l then fullReduce l else l)
      (natToLimbs (modInverse (valList (if isOverflow r then fullReduce r else r)) prime)) := by
    simp only [divide]
    rw [hno]
    simp
  rw [hfst]
  exact ⟨hb2, hlt2⟩

/-- Deserializing any serialized accumulator never hits the overflow error. -/
theorem serialize_roundtrip {m : MuHashState} (hn : bounded m.numerator) :
    deserializeMu (serializeMu m) ≠ none := by
  obtain ⟨hwb, hwlt⟩ := divide_fst_correct (r := m.denominator) hn
  have hlen : (wordsToBytes (divide m.numerator m.denominator).1).length = 384 := by
    rw [wordsToBytes_length, hwb.1]
    rfl
  have hbytes := wordsToBytes_lt (divide m.numerator m.denominator).1
  have hv : byteVal (wordsToBytes (divide m.numerator m.denominator).1)
      = valList (divide m.numerator m.denominator).1 := byteVal_wordsToBytes hwb.2
  simp only [serializeMu, normalize]
  rw [Ne, deserialize_none_iff hlen hbytes, hv]
  omega

/-- C7: For a 384-byte input, `DeserializeMuHash` returns the typed overflow
error (`none`) iff the little-endian value of the bytes is `≥ p`; on success
the result has that value as numerator and 1 as denominator; and
deserializing the output of `Serialize` never errors. -/
theorem C7_deserialize_overflow {s : List Nat} (hs : s.length = 384)
    (hsb : ∀ a ∈ s, a < 256) :
    (deserializeMu s = none ↔ prime ≤ byteVal s) ∧
    (∀ m, deserializeMu s = some m →
      valList m.numerator = byteVal s ∧ m.denominator = one3072) ∧
    (∀ m : MuHashState, bounded m.numerator → deserializeMu (serializeMu m) ≠ none) :=
  ⟨deserialize_none_iff hs hsb,
   fun _ hm => deserialize_some hs hm,
   fun _ hn => serialize_roundtrip hn⟩

set_option maxRecDepth 8000 in
theorem C7_deserialize_overflow_witness :
    (List.replicate 384 0).length = 384 ∧ (∀ a ∈ List.replicate 384 0, a < 256) ∧
      ((deserializeMu (List.replicate 384 0) = none ↔
          prime ≤ byteVal (List.replicate 384 0)) ∧
      (∀ m, deserializeMu (List.replicate 384 0) = some m →
        valList m.numerator = byteVal (List.replicate 384 0) ∧ m.denominator = one3072) ∧
      (∀ m : MuHashState, bounded m.numerator → deserializeMu (serializeMu m) ≠ none)) :=
  ⟨by decide, by decide, C7_deserialize_overflow (by decide) (by decide)⟩

end GoMuhash
